import Mathlib

/-
  Verification development for the n8n-auto-preview job engine
  (scripts/run_job.mjs) and its bank wizard (scripts/bank_wizard.mjs).

  JavaScript strings are modelled as lists of characters; JavaScript
  numbers that hold counts and indexes are modelled as Nat, persisted
  caption ids as Int (they may be zero or negative in raw data).
  Randomness (Math.random-based index selection) is modelled by explicit
  natural-number parameters reduced modulo the relevant pool size, so a
  uniform choice among n alternatives corresponds to the n residues.
  Filesystem state is passed explicitly; fallible operations return
  Except values mirroring the thrown error codes.
-/

namespace AutoPreview

/-- JavaScript strings, modelled as lists of characters. -/
abbrev JStr := List Char

/-- JS `String.prototype.trim()`: strip leading and trailing whitespace. -/
def jsTrim (s : JStr) : JStr :=
  ((s.dropWhile Char.isWhitespace).reverse.dropWhile Char.isWhitespace).reverse

/-- JS `tag.replace(/\s+/g, '')`: remove every whitespace character. -/
def jsCompact (s : JStr) : JStr :=
  s.filter fun c => !c.isWhitespace

/-- JS `String.prototype.toLowerCase()` (ASCII-relevant part). -/
def jsLower (s : JStr) : JStr :=
  s.map Char.toLower

/-- Error codes for the exceptions the scripts can throw. -/
inductive JsError where
  /-- Thrown as `Cannot pick ... items from ... items.` thrown by `pickRandomItems`. -/
  | cannotPick
  /-- Thrown as `Caption entry at index ... does not contain text.` -/
  | captionNoText
  /-- Thrown as `No caption entries available in captions.json.` -/
  | noCaption
  /-- filesystem `ENOENT` -/
  | enoent
  /-- filesystem `EEXIST` -/
  | eexist
  /-- filesystem `EXDEV` -/
  | exdev
  /-- any other propagated error -/
  | eother
deriving DecidableEq, Repr

/-- A normalized caption entry: `{id, text, used, used_at}`. -/
structure CaptionEntry where
  id : Int
  text : JStr
  used : Bool
  used_at : Option JStr
deriving DecidableEq, Repr

/-- A raw entry of `captions.json`: either a legacy plain string or a
structured record whose `text` / `caption` fields are strings when present
(`none` models a missing or non-string field) and whose `id` is an integer
when present (`none` models a missing or null id). -/
inductive RawCaption where
  | str (s : JStr)
  | obj (id : Option Int) (text : Option JStr) (caption : Option JStr)
        (used : Bool) (used_at : Option JStr)
deriving DecidableEq, Repr

/-- A raw entry of `hashtags.json`: a plain string or a record with
optional `tag` / `hashtag` / `text` string fields. -/
inductive RawTag where
  | str (s : JStr)
  | obj (tag : Option JStr) (hashtag : Option JStr) (text : Option JStr)
deriving DecidableEq, Repr

/-- JS `typeof entry.text === 'string' ? entry.text : typeof entry.caption === 'string' ? entry.caption : ''` -/
def textCandidate (text caption : Option JStr) : JStr :=
  match text with
  | some t => t
  | none =>
    match caption with
    | some c => c
    | none => []

/-- JS `entry.tag ?? entry.hashtag ?? entry.text ?? ''` (a field set to a
string wins; missing fields fall through). -/
def tagCandidate (tag hashtag text : Option JStr) : JStr :=
  match tag with
  | some t => t
  | none =>
    match hashtag with
    | some h => h
    | none =>
      match text with
      | some t => t
      | none => []

/-- The candidate string a raw hashtag entry contributes: the string
itself, or the record's `tag ?? hashtag ?? text ?? ''`. -/
def rawTagCandidate : RawTag → JStr
  | .str s => s
  | .obj tag hashtag text => tagCandidate tag hashtag text

namespace RunJob

/-- JS `randomIntInclusive(min, max)`: uniform integer in `[min, max]`;
the random draw is the residue of `r` modulo the interval width. -/
def randomIntInclusive (min max r : Nat) : Nat :=
  min + r % (max - min + 1)

/-- The loop of `pickRandomItems`: `count` times, draw a uniformly random
index into the remaining pool (`rand i` is the i-th random draw), push the
element and `splice` it out.  The `pool = []` guard is unreachable when
`count` does not exceed the pool size. -/
def pickRandomItemsGo (rand : Nat → Nat) : Nat → Nat → List α → List α
  | 0, _, _ => []
  | _ + 1, _, [] => []
  | k + 1, i, a :: pool =>
    let idx := rand i % (a :: pool).length
    (a :: pool).get ⟨idx, Nat.mod_lt _ (Nat.succ_pos _)⟩ ::
      pickRandomItemsGo rand k (i + 1) ((a :: pool).eraseIdx idx)

/-- JS `pickRandomItems(items, count)`: empty selection for `count <= 0`,
throws when `count > items.length`, otherwise removes-and-redraws
`count` elements. -/
def pickRandomItems (items : List α) (count : Nat) (rand : Nat → Nat) :
    Except JsError (List α) :=
  if count = 0 then .ok []
  else if items.length < count then .error .cannotPick
  else .ok (pickRandomItemsGo rand count 0 items)

/-- JS `chooseComposition(imageCount, videoCount)`; `r` models the
`Math.random()` draw that indexes into `possibleImageCounts`. -/
def chooseComposition (imageCount videoCount r : Nat) : Option (Nat × Nat) :=
  if imageCount + videoCount < 4 then none
  else
    let fallback : Option (Nat × Nat) :=
      if 4 ≤ imageCount then some (4, 0)
      else if 4 ≤ videoCount then some (0, 4)
      else none
    if 0 < imageCount ∧ 0 < videoCount then
      let possibleImageCounts :=
        (List.range' 1 3).filter fun candidate =>
          decide (candidate ≤ imageCount) && decide (4 - candidate ≤ videoCount)
      if h : 0 < possibleImageCounts.length then
        let imagePick := possibleImageCounts.get ⟨r % possibleImageCounts.length, Nat.mod_lt _ h⟩
        some (imagePick, 4 - imagePick)
      else fallback
    else fallback

/-- The feasible mixed image counts `{k in [1,3] : k <= imageCount, 4-k <= videoCount}`
exactly as `chooseComposition` builds them. -/
def possibleImageCounts (imageCount videoCount : Nat) : List Nat :=
  (List.range' 1 3).filter fun candidate =>
    decide (candidate ≤ imageCount) && decide (4 - candidate ≤ videoCount)

/-- The recursion behind `normalizeCaptionEntries` (the JS `raw.map` with
its element index): a legacy string is trimmed and kept even when blank;
a structured record with blank text throws; an explicit id is kept as-is
(`entry.id ?? index + 1`). -/
def normalizeCaptionEntriesGo : Nat → List RawCaption → Except JsError (List CaptionEntry)
  | _, [] => .ok []
  | index, .str s :: rest =>
    match normalizeCaptionEntriesGo (index + 1) rest with
    | .error e => .error e
    | .ok tail =>
      .ok ({ id := (index : Int) + 1, text := jsTrim s, used := false, used_at := none } :: tail)
  | index, .obj oid otext ocaption used used_at :: rest =>
    let text := jsTrim (textCandidate otext ocaption)
    if text = [] then .error .captionNoText
    else
      match normalizeCaptionEntriesGo (index + 1) rest with
      | .error e => .error e
      | .ok tail =>
        .ok ({ id := oid.getD ((index : Int) + 1), text := text,
               used := used, used_at := used_at } :: tail)

/-- JS `normalizeCaptionEntries(raw)` of run_job.mjs. -/
def normalizeCaptionEntries (raw : List RawCaption) : Except JsError (List CaptionEntry) :=
  normalizeCaptionEntriesGo 0 raw

/-- The shared tail of JS `pickCaption` (its lines after the reset): throw
when no index is available, otherwise select a uniformly random available
index (`r` models the `Math.random()` draw), mark that entry used with the
current timestamp `now`, and return the text plus updated bank. -/
def selectCaption (state : List CaptionEntry) (availableIndexes : List Nat)
    (r : Nat) (now : JStr) : Except JsError (JStr × List CaptionEntry) :=
  if h : 0 < availableIndexes.length then
    let selectedIndex := availableIndexes.get ⟨r % availableIndexes.length, Nat.mod_lt _ h⟩
    match state[selectedIndex]? with
    | some e =>
      .ok (e.text, state.set selectedIndex { e with used := true, used_at := some now })
    | none => .error .noCaption
  else .error .noCaption

/-- JS `pickCaption(captions)`: copy the state, collect the indexes of
unused entries, reset the whole bank (making every index available again)
when none is unused, then run the selection tail. -/
def pickCaption (captions : List CaptionEntry) (r : Nat) (now : JStr) :
    Except JsError (JStr × List CaptionEntry) :=
  let availableIndexes := (captions.enum.filter fun p => !p.2.used).map fun p => p.1
  if availableIndexes.length = 0 then
    selectCaption (captions.map fun e => { e with used := false, used_at := none })
      (List.range captions.length) r now
  else
    selectCaption captions availableIndexes r now

/-- JS `[...new Set(tags)]`: keep the first occurrence of each string,
preserving insertion order (exact string equality). -/
def jsSetDedupGo (seen : List JStr) : List JStr → List JStr
  | [] => []
  | t :: rest =>
    if t ∈ seen then jsSetDedupGo seen rest
    else t :: jsSetDedupGo (t :: seen) rest

/-- JS `[...new Set(tags)]`. -/
def jsSetDedup (l : List JStr) : List JStr := jsSetDedupGo [] l

/-- JS `normalizeHashtags(raw)` of run_job.mjs: extract the candidate string,
trim, drop empties, then prepend `#` (compacting whitespace only in that
branch), and deduplicate via a `Set` of exact strings. -/
def normalizeHashtags (raw : List RawTag) : List JStr :=
  let tags :=
    (raw.map rawTagCandidate
      |>.map jsTrim
      |>.filter (fun tag => !tag.isEmpty)
      |>.map fun tag => if tag.head? = some '#' then tag else '#' :: jsCompact tag)
  jsSetDedup tags

/-- JS `pickHashtags(hashtags)`: empty bank gives an empty pick; otherwise a
uniform target count in `[min(3,n), min(5,n)]` then sampling without
replacement. -/
def pickHashtags (hashtags : List JStr) (rCount : Nat) (rand : Nat → Nat) :
    Except JsError (List JStr) :=
  if hashtags.length = 0 then .ok []
  else
    let maxPick := Nat.min 5 hashtags.length
    let minPick := Nat.min 3 maxPick
    let pickCount := randomIntInclusive minPick maxPick rCount
    pickRandomItems hashtags pickCount rand

/-- Outcome of `process.kill(pid, 0)` for a given pid. -/
inductive ProbeResult where
  | ok
  | esrch
  | eperm
  | other
deriving DecidableEq, Repr

/-- What the lock file holds: a record whose first line parsed to an
integer pid, or contents that cannot be read/parsed as one. -/
inductive LockContent where
  | corrupt
  | record (pid : Int)
deriving DecidableEq, Repr

/-- The state `acquireLock` interacts with: the lock file, the liveness
probe, and the acquiring process's own pid. -/
structure LockWorld where
  lockFile : Option LockContent
  probe : Int → ProbeResult
  selfPid : Int

/-- JS `isProcessAlive(pid)`: non-positive (or non-integer) pids are dead;
`ESRCH` means dead, `EPERM` conservatively means alive, any other probe
error is rethrown. -/
def isProcessAlive (probe : Int → ProbeResult) (pid : Int) : Except JsError Bool :=
  if ¬ 0 < pid then .ok false
  else
    match probe pid with
    | .ok => .ok true
    | .esrch => .ok false
    | .eperm => .ok true
    | .other => .error .eother

/-- JS `acquireLock()`: exclusive create of a fresh record; on `EEXIST` read
the existing record inside a try/catch (a read/parse/probe throw is
treated as staleness), fail if the recorded holder is alive, otherwise
remove the stale record and retry the exclusive create once. -/
def acquireLock (w : LockWorld) : Bool × LockWorld :=
  match w.lockFile with
  | none => (true, { w with lockFile := some (.record w.selfPid) })
  | some content =>
    let alive : Bool :=
      match content with
      | .corrupt => false
      | .record pid =>
        match isProcessAlive w.probe pid with
        | .ok b => b
        | .error _ => false
    if alive then (false, w)
    else (true, { w with lockFile := some (.record w.selfPid) })

/-- Decimal rendering of a natural number (JS `String(attempt)`). -/
def toDec (n : Nat) : List Char :=
  if h : n < 10 then [Char.ofNat (48 + n)]
  else toDec (n / 10) ++ [Char.ofNat (48 + n % 10)]
decreasing_by exact Nat.div_lt_self (by omega) (by omega)

/-- The suffix used by the collision probes: empty for attempt 0, else
`_<attempt>` in decimal. -/
def attemptSuffix (attempt : Nat) : JStr :=
  if attempt = 0 then [] else '_' :: toDec attempt

/-- JS `${parsed.name}${suffix}${parsed.ext}`: the numeric suffix is inserted
between the stem and the extension. -/
def candidateFileName (name ext : JStr) (attempt : Nat) : JStr :=
  name ++ attemptSuffix attempt ++ ext

/-- JS `path.parse(baseName)` reduced to the `(name, ext)` pair: `ext` starts
at the last dot, except that a dot in first position (dotfile) or a
missing dot gives an empty extension. -/
def splitExt (base : JStr) : JStr × JStr :=
  let rev := base.reverse
  let extRev := rev.takeWhile fun c => c ≠ '.'
  match rev.dropWhile (fun c => c ≠ '.') with
  | [] => (base, [])
  | [_] => (base, [])
  | _ :: b :: rest => ((b :: rest).reverse, '.' :: extRev.reverse)

/-- The probing loop of `uniqueFilePath`, with explicit fuel; the source
loops until a candidate name is absent from the destination directory, and
`existing.length + 1` probes always suffice (proved below), so the
fuel-exhausted branch is unreachable. -/
def uniqueFilePathGo (existing : List JStr) (name ext : JStr) : Nat → Nat → JStr
  | attempt, 0 => candidateFileName name ext attempt
  | attempt, fuel + 1 =>
    let candidate := candidateFileName name ext attempt
    if candidate ∈ existing then uniqueFilePathGo existing name ext (attempt + 1) fuel
    else candidate

/-- JS `uniqueFilePath(targetDir, baseName)` against the directory's current
listing `existing`. -/
def uniqueFilePath (existing : List JStr) (baseName : JStr) : JStr :=
  uniqueFilePathGo existing (splitExt baseName).1 (splitExt baseName).2 0 (existing.length + 1)

/-- JS `path.basename(p)`. -/
def jsBasename (p : JStr) : JStr :=
  (p.reverse.takeWhile fun c => c ≠ '/').reverse

/-- A flat filesystem: a listing of paths with content identifiers, plus
the storage device each path lives on. -/
structure FsState where
  files : List (JStr × Nat)
  dev : JStr → Nat

/-- Content at a path, if the file exists. -/
def lookupFile (fs : FsState) (p : JStr) : Option Nat :=
  (fs.files.find? fun e => e.1 == p).map fun e => e.2

/-- Delete a path from the listing. -/
def removeFile (fs : FsState) (p : JStr) : FsState :=
  { fs with files := fs.files.filter fun e => !(e.1 == p) }

/-- Write content at a path, replacing whatever was there. -/
def setFile (fs : FsState) (p : JStr) (c : Nat) : FsState :=
  { fs with files := (p, c) :: fs.files.filter fun e => !(e.1 == p) }

/-- JS `fs.rename(src, dst)`: fails with `ENOENT` when the source is missing
and with `EXDEV` across devices; otherwise atomically moves the content,
silently replacing any existing destination. -/
def renameFs (fs : FsState) (src dst : JStr) : Except JsError FsState :=
  match lookupFile fs src with
  | none => .error .enoent
  | some c =>
    if fs.dev src ≠ fs.dev dst then .error .exdev
    else .ok (setFile (removeFile fs src) dst c)

/-- JS `fs.copyFile(src, dst, COPYFILE_EXCL)`: exclusive create; fails with
`EEXIST` when the destination already exists. -/
def copyFileExcl (fs : FsState) (src dst : JStr) : Except JsError FsState :=
  match lookupFile fs src with
  | none => .error .enoent
  | some c =>
    match lookupFile fs dst with
    | some _ => .error .eexist
    | none => .ok (setFile fs dst c)

/-- JS `fs.unlink(p)`. -/
def unlinkFs (fs : FsState) (p : JStr) : Except JsError FsState :=
  match lookupFile fs p with
  | none => .error .enoent
  | some _ => .ok (removeFile fs p)

/-- JS `moveFileSafe(sourcePath, destinationPath)`: try the atomic rename;
only on `EXDEV` fall back to exclusive-create copy then unlink. -/
def moveFileSafe (fs : FsState) (src dst : JStr) : Except JsError FsState :=
  match renameFs fs src dst with
  | .ok fs' => .ok fs'
  | .error e =>
    if e = .exdev then
      match copyFileExcl fs src dst with
      | .error e2 => .error e2
      | .ok fs' => unlinkFs fs' src
    else .error e

/-- The observable side effects of a run that the orchestrator claim is
about. -/
inductive Event where
  | moveMedia (src dst : JStr)
  | writeCaptionFile
  | writeBank
deriving DecidableEq, Repr

/-- The media-moving loop of `run()`: each selected file gets a
collision-free destination name probed against the job directory's
current listing and is then moved; `moveFails i` injects a filesystem
failure into the i-th move.  Returns the move events that happened, the
final directory listing, and whether the loop completed. -/
def moveAll (moveFails : Nat → Bool) : Nat → List JStr → List JStr →
    List Event × List JStr × Bool
  | _, dirFiles, [] => ([], dirFiles, true)
  | i, dirFiles, src :: rest =>
    let dst := uniqueFilePath dirFiles (jsBasename src)
    if moveFails i then ([], dirFiles, false)
    else
      let r := moveAll moveFails (i + 1) (dst :: dirFiles) rest
      (.moveMedia src dst :: r.1, r.2)

/-- JS `run()` from lock acquisition onward, as a trace of side effects:
scan results are the `images`/`videos` inputs, the `r*`/`rand*` arguments
model the random draws, and the three oracles inject failures into the
move loop, the caption-artifact write, and the caption-bank rewrite.
Returns the events that happened together with the outcome
(`ok false` = skip with no side effects, `ok true` = success). -/
def runJob (images videos : List JStr) (captionsRaw : List RawCaption)
    (hashtagsRaw : List RawTag) (rComp rCap rHashCount : Nat)
    (randImg randVid randTag : Nat → Nat) (now : JStr)
    (moveFails : Nat → Bool) (captionWriteFails bankWriteFails : Bool) :
    List Event × Except JsError Bool :=
  match chooseComposition images.length videos.length rComp with
  | none => ([], .ok false)
  | some composition =>
    match pickRandomItems images composition.1 randImg with
    | .error e => ([], .error e)
    | .ok selectedImages =>
      match pickRandomItems videos composition.2 randVid with
      | .error e => ([], .error e)
      | .ok selectedVideos =>
        let selectedMedia := selectedImages ++ selectedVideos
        match normalizeCaptionEntries captionsRaw with
        | .error e => ([], .error e)
        | .ok normalizedCaptions =>
          match pickCaption normalizedCaptions rCap now with
          | .error e => ([], .error e)
          | .ok _cap =>
            let hashtags := normalizeHashtags hashtagsRaw
            match pickHashtags hashtags rHashCount randTag with
            | .error e => ([], .error e)
            | .ok _selectedHashtags =>
              let moved := moveAll moveFails 0 [] selectedMedia
              if !moved.2.2 then (moved.1, .error .enoent)
              else if captionWriteFails then (moved.1, .error .enoent)
              else if bankWriteFails then (moved.1 ++ [.writeCaptionFile], .error .enoent)
              else (moved.1 ++ [.writeCaptionFile, .writeBank], .ok true)

end RunJob

namespace BankWizard

/-- The accumulation loop of the wizard's `normalizeCaptions`: blank
texts are skipped, a positive integer id is kept, anything else gets the
sequential `fallbackId`, which then jumps past the id just used. -/
def normalizeCaptionsGo : Int → List RawCaption → List CaptionEntry
  | _, [] => []
  | fallbackId, .str s :: rest =>
    let text := jsTrim s
    if text = [] then normalizeCaptionsGo fallbackId rest
    else
      { id := fallbackId, text := text, used := false, used_at := none } ::
        normalizeCaptionsGo (fallbackId + 1) rest
  | fallbackId, .obj oid otext ocaption used used_at :: rest =>
    let text := jsTrim (textCandidate otext ocaption)
    if text = [] then normalizeCaptionsGo fallbackId rest
    else
      let id :=
        match oid with
        | some pid => if 0 < pid then pid else fallbackId
        | none => fallbackId
      { id := id, text := text, used := used, used_at := used_at } ::
        normalizeCaptionsGo (max fallbackId (id + 1)) rest

/-- JS `.sort((a, b) => a.id - b.id)`: stable ascending sort by id. -/
def sortById (l : List CaptionEntry) : List CaptionEntry :=
  l.mergeSort fun a b => decide (a.id ≤ b.id)

/-- JS `.map((entry, index) => ({ ...entry, id: index + 1 }))`. -/
def renumber (l : List CaptionEntry) : List CaptionEntry :=
  l.enum.map fun p => { p.2 with id := (p.1 : Int) + 1 }

/-- The wizard's `normalizeCaptions(raw)`. -/
def normalizeCaptions (raw : List RawCaption) : List CaptionEntry :=
  renumber (sortById (normalizeCaptionsGo 1 raw))

/-- The wizard's `normalizeHashtag(rawTag)`: trim, remove all whitespace,
then ensure the leading `#`. -/
def normalizeHashtag (rawTag : JStr) : JStr :=
  let trimmed := jsTrim rawTag
  if trimmed = [] then []
  else
    let compact := jsCompact trimmed
    if compact = [] then []
    else if compact.head? = some '#' then compact
    else '#' :: compact

/-- The wizard's `normalizeHashtags` loop: case-insensitive
deduplication via a `Set` of lowercased keys, keeping the first
occurrence's casing. -/
def normalizeHashtagsGo (seen : List JStr) : List RawTag → List JStr
  | [] => []
  | entry :: rest =>
    let normalized := normalizeHashtag (rawTagCandidate entry)
    if normalized = [] then normalizeHashtagsGo seen rest
    else
      let key := jsLower normalized
      if key ∈ seen then normalizeHashtagsGo seen rest
      else normalized :: normalizeHashtagsGo (key :: seen) rest

/-- The wizard's `normalizeHashtags(raw)`. -/
def normalizeHashtags (raw : List RawTag) : List JStr :=
  normalizeHashtagsGo [] raw

end BankWizard

/-- Re-reading a persisted caption entry yields this raw record (the JSON
round-trip of a normalized entry). -/
def rawOfEntry (e : CaptionEntry) : RawCaption :=
  .obj (some e.id) (some e.text) none e.used e.used_at

/-- Number of entries still unused in a bank. -/
def unusedCount (l : List CaptionEntry) : Nat :=
  (l.filter fun e => !e.used).length

/-- The full-bank reset `pickCaption` performs when no entry is unused. -/
def resetBank (l : List CaptionEntry) : List CaptionEntry :=
  l.map fun e => { e with used := false, used_at := none }

/-- Read a decimal digit string back as a number (left inverse of
`toDec`, used to reason about suffix collisions). -/
def ofDec (l : List Char) : Nat :=
  l.foldl (fun acc c => acc * 10 + (c.toNat - 48)) 0

/-! ### Composition planner -/

namespace RunJob

lemma mem_possibleImageCounts {i v k : Nat} :
    k ∈ possibleImageCounts i v ↔ 1 ≤ k ∧ k ≤ 3 ∧ k ≤ i ∧ 4 - k ≤ v := by
  simp only [possibleImageCounts, List.mem_filter, List.mem_range', Bool.and_eq_true,
    decide_eq_true_eq]
  constructor
  · rintro ⟨⟨j, hj, rfl⟩, h1, h2⟩
    omega
  · rintro ⟨h1, h2, h3, h4⟩
    exact ⟨⟨k - 1, by omega, by omega⟩, h3, h4⟩

lemma possibleImageCounts_total {i v k : Nat} (h : k ∈ possibleImageCounts i v) :
    4 ≤ i + v := by
  have := mem_possibleImageCounts.mp h
  omega

lemma chooseComposition_eq_mixed (i v r : Nat) (hi : 0 < i) (hv : 0 < v)
    (h : 0 < (possibleImageCounts i v).length) :
    chooseComposition i v r =
      some ((possibleImageCounts i v).get ⟨r % (possibleImageCounts i v).length,
              Nat.mod_lt _ h⟩,
            4 - (possibleImageCounts i v).get ⟨r % (possibleImageCounts i v).length,
              Nat.mod_lt _ h⟩) := by
  have hk := List.get_mem _ _ (Nat.mod_lt r h)
  have htot : 4 ≤ i + v := possibleImageCounts_total hk
  simp only [chooseComposition]
  rw [if_neg (by omega), if_pos ⟨hi, hv⟩]
  exact dif_pos h

lemma chooseComposition_fallback (i v r : Nat) (htot : 4 ≤ i + v)
    (h : ¬(0 < i ∧ 0 < v) ∨ possibleImageCounts i v = []) :
    chooseComposition i v r =
      (if 4 ≤ i then some (4, 0) else if 4 ≤ v then some (0, 4) else none) := by
  simp only [chooseComposition]
  rw [if_neg (by omega)]
  rcases h with h | h
  · rw [if_neg h]
  · by_cases hb : 0 < i ∧ 0 < v
    · rw [if_pos hb]
      have hlen : ¬ 0 < (possibleImageCounts i v).length := by
        rw [h]
        simp
      exact dif_neg hlen
    · rw [if_neg hb]

lemma chooseComposition_fallback_cases {i v : Nat} {c : Nat × Nat}
    (h : (if 4 ≤ i then some (4, 0) else if 4 ≤ v then some (0, 4) else none)
      = some c) :
    c.1 ≤ i ∧ c.2 ≤ v ∧ c.1 + c.2 = 4 := by
  by_cases h4 : 4 ≤ i
  · rw [if_pos h4] at h
    cases Option.some.inj h
    exact ⟨h4, by omega, rfl⟩
  · rw [if_neg h4] at h
    by_cases h5 : 4 ≤ v
    · rw [if_pos h5] at h
      cases Option.some.inj h
      exact ⟨by omega, h5, rfl⟩
    · rw [if_neg h5] at h
      cases h

lemma chooseComposition_le {i v r : Nat} {c : Nat × Nat}
    (h : chooseComposition i v r = some c) :
    c.1 ≤ i ∧ c.2 ≤ v ∧ c.1 + c.2 = 4 := by
  by_cases ht : i + v < 4
  · simp [chooseComposition, ht] at h
  by_cases hb : 0 < i ∧ 0 < v
  · by_cases hp : 0 < (possibleImageCounts i v).length
    · rw [chooseComposition_eq_mixed i v r hb.1 hb.2 hp] at h
      have hk := List.get_mem (possibleImageCounts i v)
        (r % (possibleImageCounts i v).length) (Nat.mod_lt _ hp)
      have hbnd := mem_possibleImageCounts.mp hk
      cases Option.some.inj h
      exact ⟨hbnd.2.2.1, hbnd.2.2.2,
        show (possibleImageCounts i v).get _ + (4 - (possibleImageCounts i v).get _) = 4 by
          omega⟩
    · have hnil : possibleImageCounts i v = [] := by
        simpa [List.length_pos] using hp
      rw [chooseComposition_fallback i v r (by omega) (Or.inr hnil)] at h
      exact chooseComposition_fallback_cases h
  · rw [chooseComposition_fallback i v r (by omega) (Or.inl hb)] at h
    exact chooseComposition_fallback_cases h

lemma possibleImageCounts_ne_nil {i v : Nat} (hi : 0 < i) (hv : 0 < v)
    (ht : 4 ≤ i + v) : possibleImageCounts i v ≠ [] := by
  have hex : ∃ k, 1 ≤ k ∧ k ≤ 3 ∧ k ≤ i ∧ 4 - k ≤ v := by
    by_cases h3 : 3 ≤ v
    · exact ⟨1, by omega⟩
    · exact ⟨4 - v, by omega⟩
  obtain ⟨k, hk⟩ := hex
  exact List.ne_nil_of_mem (mem_possibleImageCounts.mpr hk)

/-! ### Sampling without replacement -/

lemma pickRandomItemsGo_length {α : Type} (rand : Nat → Nat) :
    ∀ (k i : Nat) (pool : List α), k ≤ pool.length →
      (pickRandomItemsGo rand k i pool).length = k := by
  intro k
  induction k with
  | zero => intro i pool _; rfl
  | succ n ih =>
    intro i pool h
    match pool with
    | [] => simp at h
    | a :: pool' =>
      have hidx : rand i % (a :: pool').length < (a :: pool').length :=
        Nat.mod_lt _ (Nat.succ_pos _)
      have hlen : ((a :: pool').eraseIdx (rand i % (a :: pool').length)).length
          = pool'.length := by
        rw [List.length_eraseIdx, if_pos hidx]
        simp
      have hle : n ≤ ((a :: pool').eraseIdx (rand i % (a :: pool').length)).length := by
        rw [hlen]
        simp only [List.length_cons] at h
        omega
      simp only [pickRandomItemsGo]
      rw [List.length_cons, ih (i + 1) _ hle]

lemma pickRandomItemsGo_subset {α : Type} (rand : Nat → Nat) :
    ∀ (k i : Nat) (pool : List α), pickRandomItemsGo rand k i pool ⊆ pool := by
  intro k
  induction k with
  | zero => intro i pool; simp [pickRandomItemsGo]
  | succ n ih =>
    intro i pool
    match pool with
    | [] => simp [pickRandomItemsGo]
    | a :: pool' =>
      simp only [pickRandomItemsGo]
      intro x hx
      rcases List.mem_cons.mp hx with h | h
      · rw [h]; exact List.get_mem _ _ _
      · exact (List.eraseIdx_sublist (a :: pool') _).subset (ih _ _ h)

lemma get_not_mem_eraseIdx {α : Type} (pool : List α) (hnd : pool.Nodup)
    (idx : Nat) (hidx : idx < pool.length) :
    pool.get ⟨idx, hidx⟩ ∉ pool.eraseIdx idx := by
  have hsplit : pool = pool.take idx ++ pool[idx] :: pool.drop (idx + 1) := by
    rw [List.getElem_cons_drop _ _ hidx, List.take_append_drop]
  rw [List.eraseIdx_eq_take_drop_succ]
  have hnd' := hnd
  rw [hsplit, List.nodup_append] at hnd'
  obtain ⟨-, hcons, hdisj⟩ := hnd'
  rw [List.nodup_cons] at hcons
  intro hmem
  rcases List.mem_append.mp hmem with h | h
  · exact hdisj h (List.mem_cons_self _ _)
  · exact hcons.1 h

lemma pickRandomItemsGo_nodup {α : Type} (rand : Nat → Nat) :
    ∀ (k i : Nat) (pool : List α), pool.Nodup →
      (pickRandomItemsGo rand k i pool).Nodup := by
  intro k
  induction k with
  | zero => intro i pool _; exact List.nodup_nil
  | succ n ih =>
    intro i pool hnd
    match pool with
    | [] => exact List.nodup_nil
    | a :: pool' =>
      simp only [pickRandomItemsGo]
      rw [List.nodup_cons]
      refine ⟨fun hmem => ?_, ih _ _ ((List.eraseIdx_sublist _ _).nodup hnd)⟩
      exact get_not_mem_eraseIdx _ hnd _ _
        (pickRandomItemsGo_subset rand _ _ _ hmem)

lemma pickRandomItems_spec {α : Type} (items : List α) (count : Nat)
    (rand : Nat → Nat) (h : count ≤ items.length) :
    ∃ l, pickRandomItems items count rand = .ok l ∧ l.length = count ∧
      l ⊆ items ∧ (items.Nodup → l.Nodup) := by
  unfold pickRandomItems
  by_cases hc : count = 0
  · exact ⟨[], by rw [if_pos hc], by simp [hc], by simp, fun _ => List.nodup_nil⟩
  · rw [if_neg hc, if_neg (by omega)]
    exact ⟨_, rfl, pickRandomItemsGo_length rand _ _ _ h,
      pickRandomItemsGo_subset rand _ _ _,
      fun hnd => pickRandomItemsGo_nodup rand _ _ _ hnd⟩

lemma pickHashtags_spec (bank : List JStr) (rCount : Nat) (rand : Nat → Nat)
    (hne : bank ≠ []) :
    ∃ l, pickHashtags bank rCount rand = .ok l ∧
      Nat.min 3 bank.length ≤ l.length ∧ l.length ≤ Nat.min 5 bank.length ∧
      l ⊆ bank ∧ (bank.Nodup → l.Nodup) := by
  have hlen : bank.length ≠ 0 := by
    simpa [List.length_eq_zero] using hne
  simp only [pickHashtags]
  rw [if_neg hlen]
  have hA : Nat.min 3 (Nat.min 5 bank.length) = Nat.min 3 bank.length := by
    simp only [Nat.min_def]
    split_ifs <;> omega
  rw [hA]
  have hB : Nat.min 3 bank.length ≤ Nat.min 5 bank.length := by
    simp only [Nat.min_def]
    split_ifs <;> omega
  have hC : Nat.min 5 bank.length ≤ bank.length := by
    simp only [Nat.min_def]
    split_ifs <;> omega
  have hmod : rCount % (Nat.min 5 bank.length - Nat.min 3 bank.length + 1) <
      Nat.min 5 bank.length - Nat.min 3 bank.length + 1 :=
    Nat.mod_lt _ (by omega)
  have h1 : Nat.min 3 bank.length ≤
      randomIntInclusive (Nat.min 3 bank.length) (Nat.min 5 bank.length) rCount := by
    unfold randomIntInclusive
    exact Nat.le_add_right _ _
  have h2 : randomIntInclusive (Nat.min 3 bank.length) (Nat.min 5 bank.length) rCount ≤
      Nat.min 5 bank.length := by
    unfold randomIntInclusive
    omega
  obtain ⟨l, hok, hl, hsub, hnd⟩ :=
    pickRandomItems_spec bank _ rand (le_trans h2 hC)
  exact ⟨l, hok, by omega, by omega, hsub, hnd⟩

/-! ### Hashtag set deduplication -/

lemma jsSetDedupGo_nodup :
    ∀ (l seen : List JStr), (jsSetDedupGo seen l).Nodup ∧
      ∀ t ∈ jsSetDedupGo seen l, t ∉ seen := by
  intro l
  induction l with
  | nil => intro seen; exact ⟨List.nodup_nil, by simp [jsSetDedupGo]⟩
  | cons a rest ih =>
    intro seen
    simp only [jsSetDedupGo]
    by_cases hmem : a ∈ seen
    · rw [if_pos hmem]; exact ih seen
    · rw [if_neg hmem]
      obtain ⟨hnd, hnotin⟩ := ih (a :: seen)
      refine ⟨List.nodup_cons.mpr ⟨fun hx => ?_, hnd⟩, fun t ht => ?_⟩
      · exact hnotin a hx (List.mem_cons_self _ _)
      · rcases List.mem_cons.mp ht with rfl | ht'
        · exact hmem
        · exact fun hs => hnotin t ht' (List.mem_cons_of_mem _ hs)

lemma normalizeHashtags_nodup (raw : List RawTag) :
    (normalizeHashtags raw).Nodup :=
  (jsSetDedupGo_nodup _ []).1

lemma pickHashtags_ok (bank : List JStr) (rCount : Nat) (rand : Nat → Nat) :
    ∃ l, pickHashtags bank rCount rand = .ok l := by
  by_cases h : bank = []
  · exact ⟨[], by simp [pickHashtags, h]⟩
  · obtain ⟨l, hok, -, -, -, -⟩ := pickHashtags_spec bank rCount rand h
    exact ⟨l, hok⟩

lemma normalizeCaptionEntriesGo_error :
    ∀ (raw : List RawCaption) (n : Nat) (e : JsError),
      normalizeCaptionEntriesGo n raw = .error e → e = .captionNoText := by
  intro raw
  induction raw with
  | nil => intro n e h; simp [normalizeCaptionEntriesGo] at h
  | cons a rest ih =>
    intro n e h
    cases a with
    | str s =>
      simp only [normalizeCaptionEntriesGo] at h
      cases hrec : normalizeCaptionEntriesGo (n + 1) rest with
      | error e' =>
        rw [hrec] at h
        injection h with h'
        exact h' ▸ ih _ _ hrec
      | ok tail =>
        rw [hrec] at h
        cases h
    | obj oid otext ocaption used used_at =>
      simp only [normalizeCaptionEntriesGo] at h
      by_cases ht : jsTrim (textCandidate otext ocaption) = []
      · rw [if_pos ht] at h
        injection h with h'
        exact h'.symm
      · rw [if_neg ht] at h
        cases hrec : normalizeCaptionEntriesGo (n + 1) rest with
        | error e' =>
          rw [hrec] at h
          injection h with h'
          exact h' ▸ ih _ _ hrec
        | ok tail =>
          rw [hrec] at h
          cases h

lemma selectCaption_error {state : List CaptionEntry} {availableIndexes : List Nat}
    {r : Nat} {now : JStr} {e : JsError}
    (h : selectCaption state availableIndexes r now = .error e) : e = .noCaption := by
  simp only [selectCaption] at h
  split at h
  · split at h
    · cases h
    · injection h with h'
      exact h'.symm
  · injection h with h'
    exact h'.symm

lemma pickCaption_error {captions : List CaptionEntry} {r : Nat} {now : JStr}
    {e : JsError} (h : pickCaption captions r now = .error e) : e = .noCaption := by
  simp only [pickCaption] at h
  split at h
  · exact selectCaption_error h
  · exact selectCaption_error h

end RunJob

/-! ### Claims about the composition planner and samplers -/

/-- C1: `chooseComposition(imageCount, videoCount)` follows the spec's
algorithm: with fewer than 4 media in total there is no composition; when
both counts are positive and the feasible set
`{k in [1,3] : k ≤ imageCount ∧ 4-k ≤ videoCount}` is non-empty, the
result is a mixed composition `{images: k, videos: 4-k}` with k drawn
uniformly from the feasible set (only feasible k occur, and every feasible
k is reachable by some random draw); otherwise the all-image, then
all-video, then no-composition fallbacks apply — so mixing is strictly
preferred over single-type batches whenever feasible. -/
theorem claim_C1 (imageCount videoCount r : Nat) :
    (imageCount + videoCount < 4 →
      RunJob.chooseComposition imageCount videoCount r = none) ∧
    (∀ k, k ∈ RunJob.possibleImageCounts imageCount videoCount ↔
      1 ≤ k ∧ k ≤ 3 ∧ k ≤ imageCount ∧ 4 - k ≤ videoCount) ∧
    (0 < imageCount → 0 < videoCount →
      RunJob.possibleImageCounts imageCount videoCount ≠ [] →
      (∃ k, k ∈ RunJob.possibleImageCounts imageCount videoCount ∧
        RunJob.chooseComposition imageCount videoCount r = some (k, 4 - k)) ∧
      (∀ k, k ∈ RunJob.possibleImageCounts imageCount videoCount →
        ∃ r0, RunJob.chooseComposition imageCount videoCount r0 = some (k, 4 - k))) ∧
    (4 ≤ imageCount + videoCount →
      (¬(0 < imageCount ∧ 0 < videoCount) ∨
        RunJob.possibleImageCounts imageCount videoCount = []) →
      RunJob.chooseComposition imageCount videoCount r =
        (if 4 ≤ imageCount then some (4, 0)
         else if 4 ≤ videoCount then some (0, 4)
         else none)) := by
  refine ⟨fun h => by simp [RunJob.chooseComposition, h],
    fun k => RunJob.mem_possibleImageCounts,
    fun hi hv hne => ?_,
    fun htot hcase => RunJob.chooseComposition_fallback _ _ _ htot hcase⟩
  have hp : 0 < (RunJob.possibleImageCounts imageCount videoCount).length :=
    List.length_pos.mpr hne
  constructor
  · exact ⟨_, List.get_mem _ _ _,
      RunJob.chooseComposition_eq_mixed _ _ r hi hv hp⟩
  · intro k hk
    obtain ⟨idx, hget⟩ := List.get_of_mem hk
    refine ⟨idx.1, ?_⟩
    rw [RunJob.chooseComposition_eq_mixed _ _ idx.1 hi hv hp]
    have hfin : (⟨idx.1 % (RunJob.possibleImageCounts imageCount videoCount).length,
        Nat.mod_lt _ hp⟩ : Fin (RunJob.possibleImageCounts imageCount videoCount).length)
        = idx := Fin.ext (Nat.mod_eq_of_lt idx.2)
    rw [hfin, hget]

/-- Witness for C1: with 2 images and 2 videos the feasible mixed set is
exactly the split (2, 2), and the planner returns it. -/
theorem claim_C1_witness : RunJob.chooseComposition 2 2 0 = some (2, 2) := by
  obtain ⟨⟨k, hk, he⟩, -⟩ := (claim_C1 2 2 0).2.2.1 (by decide) (by decide) (by decide)
  have hlist : RunJob.possibleImageCounts 2 2 = [2] := by decide
  rw [hlist] at hk
  have hk' : k = 2 := by simpa using hk
  rw [hk'] at he
  exact he

/-- C5: `pickHashtags` maps an empty bank to an empty selection (not an
error); on a non-empty bank it returns a list of distinct tags drawn from
the bank whose length lies in `[min(3,n), min(5,n)]`, every target count
in that range is reachable by some random draw, and the engine's
normalized hashtag bank it is applied to is always duplicate-free. -/
theorem claim_C5 (bank : List JStr) (rCount : Nat) (rand : Nat → Nat) :
    (bank = [] → RunJob.pickHashtags bank rCount rand = .ok []) ∧
    (bank ≠ [] → ∃ l, RunJob.pickHashtags bank rCount rand = .ok l ∧
      Nat.min 3 bank.length ≤ l.length ∧ l.length ≤ Nat.min 5 bank.length ∧
      l ⊆ bank ∧ (bank.Nodup → l.Nodup)) ∧
    (∀ c, Nat.min 3 bank.length ≤ c → c ≤ Nat.min 5 bank.length →
      ∃ r0, RunJob.randomIntInclusive (Nat.min 3 (Nat.min 5 bank.length))
        (Nat.min 5 bank.length) r0 = c) ∧
    (∀ raw : List RawTag, (RunJob.normalizeHashtags raw).Nodup) := by
  refine ⟨fun h => by simp [RunJob.pickHashtags, h],
    RunJob.pickHashtags_spec bank rCount rand,
    fun c h1 h2 => ?_,
    RunJob.normalizeHashtags_nodup⟩
  refine ⟨c - Nat.min 3 (Nat.min 5 bank.length), ?_⟩
  have hA : Nat.min 3 (Nat.min 5 bank.length) = Nat.min 3 bank.length := by
    simp only [Nat.min_def]
    split_ifs <;> omega
  have hB : Nat.min 3 bank.length ≤ Nat.min 5 bank.length := by
    simp only [Nat.min_def]
    split_ifs <;> omega
  unfold RunJob.randomIntInclusive
  rw [hA, Nat.mod_eq_of_lt (by omega)]
  omega

/-- Witness for C5: on the one-tag bank the pick succeeds. -/
theorem claim_C5_witness :
    (RunJob.pickHashtags [['#', 'a']] 0 (fun i => i)).isOk = true := by
  obtain ⟨l, hok, -, -, -, -⟩ := (claim_C5 [['#', 'a']] 0 (fun i => i)).2.1 (by decide)
  rw [hok]
  rfl

/-- C10: every composition is compatible with the stock: returned counts
are bounded by the available counts (and sum to 4); when both counts are
positive and the total is at least 4 the feasible mixed set is non-empty;
consequently the `pickRandomItems` calls made by `run()` always succeed,
and `run()` never surfaces the `Cannot pick` error. -/
theorem claim_C10 (imageCount videoCount r : Nat) :
    (∀ c : Nat × Nat, RunJob.chooseComposition imageCount videoCount r = some c →
      c.1 ≤ imageCount ∧ c.2 ≤ videoCount ∧ c.1 + c.2 = 4) ∧
    (0 < imageCount → 0 < videoCount → 4 ≤ imageCount + videoCount →
      RunJob.possibleImageCounts imageCount videoCount ≠ []) ∧
    (∀ (images videos : List JStr) (randImg randVid : Nat → Nat) (c : Nat × Nat),
      RunJob.chooseComposition images.length videos.length r = some c →
      (RunJob.pickRandomItems images c.1 randImg).isOk = true ∧
      (RunJob.pickRandomItems videos c.2 randVid).isOk = true) ∧
    (∀ (images videos : List JStr) (captionsRaw : List RawCaption)
        (hashtagsRaw : List RawTag) (rComp rCap rHashCount : Nat)
        (randImg randVid randTag : Nat → Nat) (now : JStr)
        (moveFails : Nat → Bool) (captionWriteFails bankWriteFails : Bool),
      (RunJob.runJob images videos captionsRaw hashtagsRaw rComp rCap rHashCount
        randImg randVid randTag now moveFails captionWriteFails bankWriteFails).2 ≠
        Except.error JsError.cannotPick) := by
  refine ⟨fun c h => RunJob.chooseComposition_le h,
    fun hi hv ht => RunJob.possibleImageCounts_ne_nil hi hv ht,
    fun images videos randImg randVid c hc => ?_, ?_⟩
  · have hle := RunJob.chooseComposition_le hc
    obtain ⟨si, hsi, -, -, -⟩ := RunJob.pickRandomItems_spec images c.1 randImg hle.1
    obtain ⟨sv, hsv, -, -, -⟩ := RunJob.pickRandomItems_spec videos c.2 randVid hle.2.1
    rw [hsi, hsv]
    exact ⟨rfl, rfl⟩
  · intro images videos captionsRaw hashtagsRaw rComp rCap rHashCount
      randImg randVid randTag now moveFails captionWriteFails bankWriteFails
    simp only [RunJob.runJob]
    cases hc : RunJob.chooseComposition images.length videos.length rComp with
    | none => simp
    | some c =>
      have hle := RunJob.chooseComposition_le hc
      obtain ⟨si, hsi, -, -, -⟩ := RunJob.pickRandomItems_spec images c.1 randImg hle.1
      obtain ⟨sv, hsv, -, -, -⟩ := RunJob.pickRandomItems_spec videos c.2 randVid hle.2.1
      dsimp only
      rw [hsi]
      dsimp only
      rw [hsv]
      dsimp only
      cases hn : RunJob.normalizeCaptionEntries captionsRaw with
      | error e =>
        have he := RunJob.normalizeCaptionEntriesGo_error captionsRaw 0 e hn
        simp [he]
      | ok nc =>
        dsimp only
        cases hp : RunJob.pickCaption nc rCap now with
        | error e =>
          have he := RunJob.pickCaption_error hp
          simp [he]
        | ok pr =>
          dsimp only
          obtain ⟨hl, hok⟩ := RunJob.pickHashtags_ok
            (RunJob.normalizeHashtags hashtagsRaw) rHashCount randTag
          rw [hok]
          dsimp only
          split_ifs <;> simp

/-- Witness for C10: a concrete run with 1 image, 3 videos, one caption and
no hashtags never reports the sampling error. -/
theorem claim_C10_witness :
    (RunJob.runJob [['i', '.', 'j', 'p', 'g']]
      [['a', '.', 'm', 'p', '4'], ['b', '.', 'm', 'p', '4'], ['c', '.', 'm', 'p', '4']]
      [.str ['H', 'i']] [] 0 0 0 (fun _ => 0) (fun _ => 0) (fun _ => 0) ['t']
      (fun _ => false) false false).2 ≠ Except.error JsError.cannotPick :=
  (claim_C10 0 0 0).2.2.2 _ _ _ _ _ _ _ _ _ _ _ _ _ _

/-! ### Claim about the run lock -/

/-- C6: `acquireLock` creates a fresh record when none exists; with an
existing record whose holder is alive (probe succeeds) acquisition fails,
and a permission error while probing is conservatively treated as alive,
so acquisition fails too; a dead holder (ESRCH or a non-positive pid), a
propagated probe error, or a corrupt record is treated as stale: the
record is removed and the exclusive create retried once, leaving a fresh
record for the caller. -/
theorem claim_C6 (w : RunJob.LockWorld) :
    (w.lockFile = none →
      RunJob.acquireLock w = (true, { w with lockFile := some (.record w.selfPid) })) ∧
    (∀ pid, w.lockFile = some (.record pid) → 0 < pid → w.probe pid = .ok →
      RunJob.acquireLock w = (false, w)) ∧
    (∀ pid, w.lockFile = some (.record pid) → 0 < pid → w.probe pid = .eperm →
      RunJob.acquireLock w = (false, w)) ∧
    (∀ pid, w.lockFile = some (.record pid) →
      (¬ 0 < pid ∨ w.probe pid = .esrch ∨ w.probe pid = .other) →
      RunJob.acquireLock w = (true, { w with lockFile := some (.record w.selfPid) })) ∧
    (w.lockFile = some .corrupt →
      RunJob.acquireLock w = (true, { w with lockFile := some (.record w.selfPid) })) := by
  refine ⟨fun h => by simp [RunJob.acquireLock, h], fun pid hf hpos hprobe => ?_,
    fun pid hf hpos hprobe => ?_, fun pid hf hcase => ?_,
    fun h => by simp [RunJob.acquireLock, h]⟩
  · simp [RunJob.acquireLock, RunJob.isProcessAlive, hf, hpos, hprobe]
  · simp [RunJob.acquireLock, RunJob.isProcessAlive, hf, hpos, hprobe]
  · rcases hcase with hpid | hprobe | hprobe
    · simp [RunJob.acquireLock, RunJob.isProcessAlive, hf, hpid]
    · by_cases hpid : 0 < pid
      · simp [RunJob.acquireLock, RunJob.isProcessAlive, hf, hpid, hprobe]
      · simp [RunJob.acquireLock, RunJob.isProcessAlive, hf, hpid]
    · by_cases hpid : 0 < pid
      · simp [RunJob.acquireLock, RunJob.isProcessAlive, hf, hpid, hprobe]
      · simp [RunJob.acquireLock, RunJob.isProcessAlive, hf, hpid]

/-- Witness for C6: a second acquisition against a live holder fails and
leaves the lock record untouched. -/
theorem claim_C6_witness :
    RunJob.acquireLock
        { lockFile := some (.record 3), probe := fun _ => .ok, selfPid := 7 }
      = (false, { lockFile := some (.record 3), probe := fun _ => .ok, selfPid := 7 }) :=
  (claim_C6 _).2.1 3 rfl (by omega) rfl

/-! ### Caption rotation: support lemmas -/

namespace RunJob

lemma availIdx_enumFrom_mem (l : List CaptionEntry) :
    ∀ (n j : Nat),
      (j ∈ ((List.enumFrom n l).filter fun p => !p.2.used).map fun p => p.1) ↔
        ∃ k e, j = n + k ∧ l[k]? = some e ∧ e.used = false := by
  induction l with
  | nil =>
    intro n j
    simp [List.enumFrom]
  | cons a rest ih =>
    intro n j
    simp only [List.enumFrom_cons, List.filter_cons]
    by_cases ha : a.used
    · rw [if_neg (by simp [ha])]
      rw [ih (n + 1)]
      constructor
      · rintro ⟨k, e, rfl, hk, he⟩
        exact ⟨k + 1, e, by omega, by simpa using hk, he⟩
      · rintro ⟨k, e, hj, hk, he⟩
        match k with
        | 0 =>
          rw [List.getElem?_cons_zero] at hk
          cases Option.some.inj hk
          simp [ha] at he
        | k + 1 =>
          rw [List.getElem?_cons_succ] at hk
          exact ⟨k, e, by omega, hk, he⟩
    · rw [if_pos (by simp [ha])]
      rw [List.map_cons]
      constructor
      · intro hmem
        rcases List.mem_cons.mp hmem with rfl | hmem'
        · exact ⟨0, a, by omega, by simp, by simp [ha]⟩
        · obtain ⟨k, e, rfl, hk, he⟩ := (ih (n + 1) j).mp hmem'
          exact ⟨k + 1, e, by omega, by simpa using hk, he⟩
      · rintro ⟨k, e, hj, hk, he⟩
        match k with
        | 0 =>
          rw [List.getElem?_cons_zero] at hk
          subst hj
          exact List.mem_cons_self _ _
        | k + 1 =>
          rw [List.getElem?_cons_succ] at hk
          exact List.mem_cons_of_mem _ ((ih (n + 1) j).mpr ⟨k, e, by omega, hk, he⟩)

lemma availIdx_mem (l : List CaptionEntry) (j : Nat) :
    (j ∈ ((l.enum.filter fun p => !p.2.used).map fun p => p.1)) ↔
      ∃ e, l[j]? = some e ∧ e.used = false := by
  rw [List.enum_eq_enumFrom, availIdx_enumFrom_mem]
  constructor
  · rintro ⟨k, e, rfl, hk, he⟩
    exact ⟨e, by simpa using hk, he⟩
  · rintro ⟨e, hj, he⟩
    exact ⟨j, e, (Nat.zero_add j).symm, hj, he⟩

lemma filter_enumFrom_length (l : List CaptionEntry) :
    ∀ n : Nat, ((List.enumFrom n l).filter fun p => !p.2.used).length =
      (l.filter fun e => !e.used).length := by
  induction l with
  | nil => intro n; rfl
  | cons a rest ih =>
    intro n
    simp only [List.enumFrom_cons, List.filter_cons]
    by_cases ha : a.used <;> simp [ha, ih]

lemma availIdx_length (l : List CaptionEntry) :
    ((l.enum.filter fun p => !p.2.used).map fun p => p.1).length = unusedCount l := by
  rw [List.length_map, List.enum_eq_enumFrom, filter_enumFrom_length]
  rfl

lemma unusedCount_resetBank (l : List CaptionEntry) :
    unusedCount (resetBank l) = l.length := by
  simp [unusedCount, resetBank, List.filter_map, Function.comp]

lemma unusedCount_set_used :
    ∀ (l : List CaptionEntry) (j : Nat) (e m : CaptionEntry),
      l[j]? = some e → m.used = true →
      unusedCount (l.set j m) = unusedCount l - (if e.used then 0 else 1) := by
  intro l
  induction l with
  | nil => intro j e m hj _; simp at hj
  | cons a rest ih =>
    intro j e m hj hm
    match j with
    | 0 =>
      rw [List.getElem?_cons_zero] at hj
      have he : a = e := Option.some.inj hj
      subst he
      by_cases ha : a.used <;>
        simp [List.set_cons_zero, unusedCount, List.filter_cons, hm, ha]
    | j + 1 =>
      rw [List.getElem?_cons_succ] at hj
      have hrec := ih j e m hj hm
      simp only [unusedCount] at hrec
      have hle : (if e.used then 0 else 1) ≤ (rest.filter fun x => !x.used).length := by
        by_cases he : e.used
        · simp [he]
        · have hmem : e ∈ rest.filter fun x => !x.used := by
            rw [List.mem_filter]
            obtain ⟨hlt, hget⟩ := List.getElem?_eq_some.mp hj
            exact ⟨hget ▸ List.getElem_mem hlt, by simp [he]⟩
          have hpos := List.length_pos.mpr (List.ne_nil_of_mem hmem)
          rw [if_neg he]
          omega
      simp only [List.set_cons_succ, unusedCount, List.filter_cons]
      by_cases ha : a.used
      · simp only [ha, Bool.not_true, Bool.false_eq_true, if_false]
        exact hrec
      · simp only [ha, Bool.not_false, if_true, List.length_cons]
        omega

lemma pickCaption_empty (r : Nat) (now : JStr) :
    pickCaption [] r now = .error .noCaption := by
  simp [pickCaption, selectCaption]

lemma pickCaption_of_unused (captions : List CaptionEntry) (r : Nat) (now : JStr)
    (h : 0 < unusedCount captions) :
    ∃ j e, captions[j]? = some e ∧ e.used = false ∧
      pickCaption captions r now =
        .ok (e.text, captions.set j { e with used := true, used_at := some now }) := by
  have hlen : ((captions.enum.filter fun p => !p.2.used).map fun p => p.1).length ≠ 0 := by
    rw [availIdx_length]
    omega
  have hpos : 0 < ((captions.enum.filter fun p => !p.2.used).map fun p => p.1).length :=
    Nat.pos_of_ne_zero hlen
  simp only [pickCaption]
  rw [if_neg hlen]
  have hjmem := List.get_mem ((captions.enum.filter fun p => !p.2.used).map fun p => p.1)
    (r % ((captions.enum.filter fun p => !p.2.used).map fun p => p.1).length)
    (Nat.mod_lt _ hpos)
  obtain ⟨e, hje, hue⟩ := (availIdx_mem captions _).mp hjmem
  refine ⟨_, e, hje, hue, ?_⟩
  unfold selectCaption
  rw [dif_pos hpos]
  dsimp only
  rw [hje]

lemma pickCaption_of_all_used (captions : List CaptionEntry) (r : Nat) (now : JStr)
    (h : unusedCount captions = 0) (hne : captions ≠ []) :
    ∃ j e, (resetBank captions)[j]? = some e ∧ e.used = false ∧
      pickCaption captions r now =
        .ok (e.text, (resetBank captions).set j { e with used := true, used_at := some now }) := by
  have hlen : ((captions.enum.filter fun p => !p.2.used).map fun p => p.1).length = 0 := by
    rw [availIdx_length, h]
  have hn : 0 < captions.length := List.length_pos.mpr hne
  have hpos : 0 < (List.range captions.length).length := by
    rw [List.length_range]
    exact hn
  unfold resetBank
  simp only [pickCaption]
  rw [if_pos hlen]
  unfold selectCaption
  rw [dif_pos hpos]
  dsimp only
  set j := (List.range captions.length).get
    ⟨r % (List.range captions.length).length, Nat.mod_lt _ hpos⟩ with hjdef
  have hjlt : j < captions.length :=
    List.mem_range.mp (List.get_mem _ _ _)
  have hjlt' : j < (captions.map fun e => { e with used := false, used_at := none }).length := by
    rw [List.length_map]
    exact hjlt
  refine ⟨j, (captions.map fun e => { e with used := false, used_at := none })[j],
    List.getElem?_eq_getElem hjlt', ?_, ?_⟩
  · rw [List.getElem_map]
  · rw [List.getElem?_eq_getElem hjlt']

lemma pickCaption_reach (captions : List CaptionEntry) (now : JStr) (j : Nat)
    (e : CaptionEntry) (hj : captions[j]? = some e) (hu : e.used = false) :
    ∃ r0, pickCaption captions r0 now =
      .ok (e.text, captions.set j { e with used := true, used_at := some now }) := by
  have hjmem : j ∈ (captions.enum.filter fun p => !p.2.used).map fun p => p.1 :=
    (availIdx_mem captions j).mpr ⟨e, hj, hu⟩
  have hlen : ((captions.enum.filter fun p => !p.2.used).map fun p => p.1).length ≠ 0 := by
    intro h0
    rw [List.length_eq_zero] at h0
    rw [h0] at hjmem
    simp at hjmem
  have hpos := Nat.pos_of_ne_zero hlen
  obtain ⟨idx, hget⟩ := List.get_of_mem hjmem
  refine ⟨idx.1, ?_⟩
  simp only [pickCaption]
  rw [if_neg hlen]
  unfold selectCaption
  rw [dif_pos hpos]
  dsimp only
  have hfin : (⟨idx.1 % ((captions.enum.filter fun p => !p.2.used).map fun p => p.1).length,
      Nat.mod_lt _ hpos⟩ :
        Fin ((captions.enum.filter fun p => !p.2.used).map fun p => p.1).length) = idx :=
    Fin.ext (Nat.mod_eq_of_lt idx.2)
  rw [hfin, hget, hj]

end RunJob

/-! ### Claim about caption rotation -/

/-- C2: `pickCaption` fails exactly on an empty bank; when some entry is
unused, no reset happens: exactly one unused entry is marked used with the
current timestamp (every unused entry being reachable by some random
draw), the chosen text and the full updated bank are returned; when no
entry is unused the whole bank is reset before selecting; and each
successful pick decreases the number of unused entries by exactly one
(from the full bank size right after a reset), so repeated picks use every
entry exactly once before any reset. -/
theorem claim_C2 (captions : List CaptionEntry) (r : Nat) (now : JStr) :
    ((∃ e, RunJob.pickCaption captions r now = .error e) ↔ captions = []) ∧
    (0 < unusedCount captions →
      ∃ j e, captions[j]? = some e ∧ e.used = false ∧
        RunJob.pickCaption captions r now =
          .ok (e.text, captions.set j { e with used := true, used_at := some now })) ∧
    (unusedCount captions = 0 → captions ≠ [] →
      ∃ j e, (resetBank captions)[j]? = some e ∧
        RunJob.pickCaption captions r now =
          .ok (e.text, (resetBank captions).set j { e with used := true, used_at := some now })) ∧
    (∀ j e, captions[j]? = some e → e.used = false →
      ∃ r0, RunJob.pickCaption captions r0 now =
        .ok (e.text, captions.set j { e with used := true, used_at := some now })) ∧
    (∀ text bank', RunJob.pickCaption captions r now = .ok (text, bank') →
      unusedCount bank' =
        (if unusedCount captions = 0 then captions.length else unusedCount captions) - 1) := by
  refine ⟨⟨fun ⟨e, he⟩ => ?_, fun h => ⟨.noCaption, h ▸ RunJob.pickCaption_empty r now⟩⟩,
    fun h => RunJob.pickCaption_of_unused captions r now h,
    fun h hne => ?_,
    fun j e hj hu => RunJob.pickCaption_reach captions now j e hj hu,
    fun text bank' hok => ?_⟩
  · by_contra hne
    by_cases hz : unusedCount captions = 0
    · obtain ⟨j1, e1, hje1, hue1, hok1⟩ := RunJob.pickCaption_of_all_used captions r now hz hne
      rw [hok1] at he
      cases he
    · obtain ⟨j1, e1, hje1, hue1, hok1⟩ :=
        RunJob.pickCaption_of_unused captions r now (Nat.pos_of_ne_zero hz)
      rw [hok1] at he
      cases he
  · obtain ⟨j, e, hje, -, hok⟩ := RunJob.pickCaption_of_all_used captions r now h hne
    exact ⟨j, e, hje, hok⟩
  · by_cases hz : unusedCount captions = 0
    · have hne : captions ≠ [] := by
        intro h0
        rw [h0, RunJob.pickCaption_empty] at hok
        cases hok
      obtain ⟨j, e, hje, hue, hok'⟩ := RunJob.pickCaption_of_all_used captions r now hz hne
      rw [hok'] at hok
      injection hok with hok
      have hbank : bank' = (resetBank captions).set j
          { e with used := true, used_at := some now } := congrArg Prod.snd hok.symm
      rw [hbank, RunJob.unusedCount_set_used (resetBank captions) j e _ hje rfl]
      rw [RunJob.unusedCount_resetBank, if_pos hz, hue]
      simp
    · obtain ⟨j, e, hje, hue, hok'⟩ :=
        RunJob.pickCaption_of_unused captions r now (Nat.pos_of_ne_zero hz)
      rw [hok'] at hok
      injection hok with hok
      have hbank : bank' = captions.set j
          { e with used := true, used_at := some now } := congrArg Prod.snd hok.symm
      rw [hbank, RunJob.unusedCount_set_used captions j e _ hje rfl]
      rw [if_neg hz, hue]
      simp

/-- Witness for C2: picking from a one-entry unused bank succeeds. -/
theorem claim_C2_witness :
    (RunJob.pickCaption [{ id := 1, text := ['a'], used := false, used_at := none }]
      0 ['t']).isOk = true := by
  obtain ⟨j, e, -, -, hok⟩ := (claim_C2
    [{ id := 1, text := ['a'], used := false, used_at := none }] 0 ['t']).2.1 (by decide)
  rw [hok]
  rfl

/-! ### Orchestrator trace: support lemmas -/

namespace RunJob

lemma moveAll_events (moveFails : Nat → Bool) :
    ∀ (srcs : List JStr) (i : Nat) (dir : List JStr) (e : Event),
      e ∈ (moveAll moveFails i dir srcs).1 → ∃ s d, e = .moveMedia s d := by
  intro srcs
  induction srcs with
  | nil => intro i dir e he; simp [moveAll] at he
  | cons src rest ih =>
    intro i dir e he
    simp only [moveAll] at he
    by_cases hf : moveFails i
    · rw [if_pos hf] at he
      simp at he
    · rw [if_neg hf] at he
      dsimp only at he
      rcases List.mem_cons.mp he with rfl | he'
      · exact ⟨_, _, rfl⟩
      · exact ih _ _ e he'

lemma moveAll_complete (moveFails : Nat → Bool) :
    ∀ (srcs : List JStr) (i : Nat) (dir : List JStr),
      (moveAll moveFails i dir srcs).2.2 = true →
      (moveAll moveFails i dir srcs).1.length = srcs.length := by
  intro srcs
  induction srcs with
  | nil => intro i dir _; rfl
  | cons src rest ih =>
    intro i dir hok
    simp only [moveAll] at hok ⊢
    by_cases hf : moveFails i
    · rw [if_pos hf] at hok
      cases hok
    · rw [if_neg hf] at hok ⊢
      dsimp only at hok ⊢
      rw [List.length_cons, List.length_cons, ih _ _ hok]

lemma writeBank_not_mem_moveAll (moveFails : Nat → Bool) (srcs : List JStr)
    (i : Nat) (dir : List JStr) :
    Event.writeBank ∉ (moveAll moveFails i dir srcs).1 := by
  intro hmem
  obtain ⟨s, d, heq⟩ := moveAll_events moveFails srcs i dir _ hmem
  cases heq

end RunJob

/-! ### Claim about the orchestrator's write ordering -/

/-- C8: whenever a run's trace contains the caption-bank rewrite, the
trace is exactly the moves of all selected media followed by the
caption-artifact write and then the single bank rewrite — so the bank is
persisted only after every media file has been moved and `caption.txt`
has been written, never before and never more than once, and this holds
for every injected failure pattern. -/
theorem claim_C8 (images videos : List JStr) (captionsRaw : List RawCaption)
    (hashtagsRaw : List RawTag) (rComp rCap rHashCount : Nat)
    (randImg randVid randTag : Nat → Nat) (now : JStr)
    (moveFails : Nat → Bool) (captionWriteFails bankWriteFails : Bool) :
    RunJob.Event.writeBank ∈ (RunJob.runJob images videos captionsRaw hashtagsRaw
        rComp rCap rHashCount randImg randVid randTag now moveFails captionWriteFails
        bankWriteFails).1 →
    ∃ (moves : List RunJob.Event) (c : Nat × Nat),
      RunJob.chooseComposition images.length videos.length rComp = some c ∧
      moves.length = c.1 + c.2 ∧
      (∀ e ∈ moves, ∃ s d, e = RunJob.Event.moveMedia s d) ∧
      (RunJob.runJob images videos captionsRaw hashtagsRaw rComp rCap rHashCount
          randImg randVid randTag now moveFails captionWriteFails bankWriteFails).1 =
        moves ++ [RunJob.Event.writeCaptionFile, RunJob.Event.writeBank] ∧
      (RunJob.runJob images videos captionsRaw hashtagsRaw rComp rCap rHashCount
          randImg randVid randTag now moveFails captionWriteFails bankWriteFails).2 =
        .ok true ∧
      (RunJob.runJob images videos captionsRaw hashtagsRaw rComp rCap rHashCount
          randImg randVid randTag now moveFails captionWriteFails bankWriteFails).1.count
        RunJob.Event.writeBank = 1 := by
  simp only [RunJob.runJob]
  cases hc : RunJob.chooseComposition images.length videos.length rComp with
  | none => intro hmem; simp at hmem
  | some c =>
    dsimp only
    cases hsi : RunJob.pickRandomItems images c.1 randImg with
    | error e => intro hmem; simp at hmem
    | ok si =>
      dsimp only
      cases hsv : RunJob.pickRandomItems videos c.2 randVid with
      | error e => intro hmem; simp at hmem
      | ok sv =>
        dsimp only
        cases hn : RunJob.normalizeCaptionEntries captionsRaw with
        | error e => intro hmem; simp at hmem
        | ok nc =>
          dsimp only
          cases hp : RunJob.pickCaption nc rCap now with
          | error e => intro hmem; simp at hmem
          | ok pr =>
            dsimp only
            cases hh : RunJob.pickHashtags (RunJob.normalizeHashtags hashtagsRaw)
                rHashCount randTag with
            | error e => intro hmem; simp at hmem
            | ok sh =>
              dsimp only
              by_cases hmv : (RunJob.moveAll moveFails 0 [] (si ++ sv)).2.2
              · rw [if_neg (by simp [hmv])]
                by_cases hcw : captionWriteFails
                · rw [if_pos hcw]
                  intro hmem
                  exact absurd hmem (RunJob.writeBank_not_mem_moveAll _ _ _ _)
                · rw [if_neg hcw]
                  by_cases hbw : bankWriteFails
                  · rw [if_pos hbw]
                    intro hmem
                    rcases List.mem_append.mp hmem with hmem' | hmem'
                    · exact absurd hmem' (RunJob.writeBank_not_mem_moveAll _ _ _ _)
                    · simp at hmem'
                  · rw [if_neg hbw]
                    dsimp only
                    intro _
                    have hlensi : si.length = c.1 := by
                      have hle := RunJob.chooseComposition_le hc
                      obtain ⟨si', hsi', hlen', -, -⟩ :=
                        RunJob.pickRandomItems_spec images c.1 randImg hle.1
                      rw [hsi'] at hsi
                      injection hsi with hsi''
                      rw [← hsi'']
                      exact hlen'
                    have hlensv : sv.length = c.2 := by
                      have hle := RunJob.chooseComposition_le hc
                      obtain ⟨sv', hsv', hlen', -, -⟩ :=
                        RunJob.pickRandomItems_spec videos c.2 randVid hle.2.1
                      rw [hsv'] at hsv
                      injection hsv with hsv''
                      rw [← hsv'']
                      exact hlen'
                    refine ⟨(RunJob.moveAll moveFails 0 [] (si ++ sv)).1, c, rfl, ?_, ?_, rfl, rfl, ?_⟩
                    · rw [RunJob.moveAll_complete moveFails (si ++ sv) 0 [] hmv,
                        List.length_append, hlensi, hlensv]
                    · exact fun e he => RunJob.moveAll_events moveFails (si ++ sv) 0 [] e he
                    · rw [List.count_append,
                        List.count_eq_zero_of_not_mem (RunJob.writeBank_not_mem_moveAll _ _ _ _)]
                      rfl
              · rw [if_pos (by simp [hmv])]
                intro hmem
                exact absurd hmem (RunJob.writeBank_not_mem_moveAll _ _ _ _)

/-! ### File materialization: support lemmas -/

namespace RunJob

lemma toDec_digit (n : Nat) (h : n < 10) : toDec n = [Char.ofNat (48 + n)] := by
  rw [toDec, dif_pos h]

lemma toDec_step (n : Nat) (h : ¬ n < 10) :
    toDec n = toDec (n / 10) ++ [Char.ofNat (48 + n % 10)] := by
  rw [toDec]
  rw [dif_neg h]

lemma ofDec_append_digit (l : List Char) (c : Char) :
    ofDec (l ++ [c]) = ofDec l * 10 + (c.toNat - 48) := by
  simp [ofDec, List.foldl_append]

lemma digit_roundtrip : ∀ d, d < 10 → (Char.ofNat (48 + d)).toNat - 48 = d := by decide

lemma ofDec_toDec (n : Nat) : ofDec (toDec n) = n := by
  induction n using Nat.strong_induction_on with
  | _ n ih =>
    by_cases h : n < 10
    · rw [toDec_digit n h]
      have hd := digit_roundtrip n h
      simpa [ofDec] using hd
    · rw [toDec_step n h, ofDec_append_digit,
        ih (n / 10) (Nat.div_lt_self (by omega) (by omega)),
        digit_roundtrip (n % 10) (Nat.mod_lt _ (by omega))]
      omega

lemma toDec_inj : Function.Injective toDec := fun a b h => by
  have h2 := congrArg ofDec h
  rwa [ofDec_toDec, ofDec_toDec] at h2

lemma attemptSuffix_inj : Function.Injective attemptSuffix := fun a b h => by
  unfold attemptSuffix at h
  by_cases ha : a = 0 <;> by_cases hb : b = 0
  · omega
  · rw [if_pos ha, if_neg hb] at h
    cases h
  · rw [if_neg ha, if_pos hb] at h
    cases h
  · rw [if_neg ha, if_neg hb] at h
    injection h with h1 h2
    exact toDec_inj h2

lemma candidateFileName_inj (name ext : JStr) :
    Function.Injective (candidateFileName name ext) := fun a b h => by
  unfold candidateFileName at h
  exact attemptSuffix_inj (List.append_cancel_left (List.append_cancel_right h))

lemma exists_free_candidate (existing : List JStr) (name ext : JStr)
    (attempt fuel : Nat) (hfuel : existing.length < fuel) :
    ∃ k < fuel, candidateFileName name ext (attempt + k) ∉ existing := by
  by_contra hall
  push_neg at hall
  have hsub : (Finset.range fuel).image
      (fun k => candidateFileName name ext (attempt + k)) ⊆ existing.toFinset := by
    intro x hx
    simp only [Finset.mem_image, Finset.mem_range] at hx
    obtain ⟨k, hk, rfl⟩ := hx
    exact List.mem_toFinset.mpr (hall k hk)
  have hcard : ((Finset.range fuel).image
      fun k => candidateFileName name ext (attempt + k)).card = fuel := by
    rw [Finset.card_image_of_injOn, Finset.card_range]
    intro x _ y _ hxy
    have h2 := candidateFileName_inj name ext hxy
    omega
  have hle := Finset.card_le_card hsub
  have hle2 := List.toFinset_card_le existing
  omega

lemma uniqueFilePathGo_spec (existing : List JStr) (name ext : JStr) :
    ∀ (fuel attempt : Nat),
      (∃ k < fuel, candidateFileName name ext (attempt + k) ∉ existing) →
      uniqueFilePathGo existing name ext attempt fuel ∉ existing ∧
      ∃ a, uniqueFilePathGo existing name ext attempt fuel = candidateFileName name ext a ∧
        attempt ≤ a := by
  intro fuel
  induction fuel with
  | zero =>
    intro attempt hex
    obtain ⟨k, hk, -⟩ := hex
    omega
  | succ f ih =>
    intro attempt hex
    simp only [uniqueFilePathGo]
    by_cases hc : candidateFileName name ext attempt ∈ existing
    · rw [if_pos hc]
      have hex' : ∃ k < f, candidateFileName name ext (attempt + 1 + k) ∉ existing := by
        obtain ⟨k, hk, hnotin⟩ := hex
        match k with
        | 0 => exact absurd hc (by simpa using hnotin)
        | k + 1 =>
          refine ⟨k, by omega, ?_⟩
          rw [show attempt + 1 + k = attempt + (k + 1) by omega]
          exact hnotin
      obtain ⟨hni, a, ha, hle⟩ := ih (attempt + 1) hex'
      exact ⟨hni, a, ha, by omega⟩
    · rw [if_neg hc]
      exact ⟨hc, attempt, rfl, le_refl _⟩

lemma dropWhile_head_false {α : Type} (p : α → Bool) :
    ∀ (l : List α) (c : α) (t : List α), l.dropWhile p = c :: t → p c = false := by
  intro l
  induction l with
  | nil => intro c t h; cases h
  | cons a rest ih =>
    intro c t h
    rw [List.dropWhile_cons] at h
    by_cases hp : p a
    · rw [if_pos hp] at h
      exact ih _ _ h
    · rw [if_neg hp] at h
      cases h
      simpa using hp

lemma splitExt_append (base : JStr) : (splitExt base).1 ++ (splitExt base).2 = base := by
  simp only [splitExt]
  cases hd : base.reverse.dropWhile (fun c => decide (c ≠ '.')) with
  | nil => simp
  | cons c rest =>
    cases rest with
    | nil => simp
    | cons b rest' =>
      have hc : c = '.' := by
        have h2 := dropWhile_head_false _ _ _ _ hd
        simpa using h2
      subst hc
      have hsplit : base.reverse =
          (base.reverse.takeWhile fun c => decide (c ≠ '.')) ++ ('.' :: b :: rest') := by
        conv_lhs => rw [← List.takeWhile_append_dropWhile (fun c => decide (c ≠ '.')) base.reverse]
        rw [hd]
      have hbase : base = ('.' :: b :: rest').reverse ++
          (base.reverse.takeWhile fun c => decide (c ≠ '.')).reverse := by
        conv_lhs => rw [← List.reverse_reverse base, hsplit, List.reverse_append]
      dsimp only
      rw [List.reverse_cons] at hbase
      conv_rhs => rw [hbase]
      rw [List.append_assoc, List.singleton_append]

lemma uniqueFilePath_spec (existing : List JStr) (baseName : JStr) :
    uniqueFilePath existing baseName ∉ existing ∧
    ∃ a, uniqueFilePath existing baseName =
      candidateFileName (splitExt baseName).1 (splitExt baseName).2 a := by
  unfold uniqueFilePath
  have hex := exists_free_candidate existing (splitExt baseName).1 (splitExt baseName).2
    0 (existing.length + 1) (by omega)
  obtain ⟨h1, a, h2, -⟩ := uniqueFilePathGo_spec existing (splitExt baseName).1
    (splitExt baseName).2 (existing.length + 1) 0 hex
  exact ⟨h1, a, h2⟩

lemma candidateFileName_zero (baseName : JStr) :
    candidateFileName (splitExt baseName).1 (splitExt baseName).2 0 = baseName := by
  unfold candidateFileName attemptSuffix
  rw [if_pos rfl, List.append_nil, splitExt_append]

lemma find_filter_ne (l : List (JStr × Nat)) (p q : JStr) (hq : q ≠ p) :
    (l.filter fun e => !(e.1 == p)).find? (fun e => e.1 == q) =
      l.find? (fun e => e.1 == q) := by
  induction l with
  | nil => rfl
  | cons a rest ih =>
    simp only [List.filter_cons]
    by_cases hap : a.1 = p
    · rw [if_neg (by simp [hap]), List.find?_cons_of_neg _ (by simp [hap, Ne.symm hq]), ih]
    · rw [if_pos (by simp [hap])]
      by_cases haq : a.1 = q
      · rw [List.find?_cons_of_pos _ (by simp [haq]), List.find?_cons_of_pos _ (by simp [haq])]
      · rw [List.find?_cons_of_neg _ (by simp [haq]), List.find?_cons_of_neg _ (by simp [haq]), ih]

lemma lookupFile_setFile (fs : FsState) (p : JStr) (c : Nat) (q : JStr) :
    lookupFile (setFile fs p c) q = if q = p then some c else lookupFile fs q := by
  unfold lookupFile setFile
  by_cases hq : q = p
  · subst hq
    rw [if_pos rfl, List.find?_cons_of_pos _ (by simp)]
    rfl
  · rw [if_neg hq, List.find?_cons_of_neg _ (by simp [Ne.symm hq]), find_filter_ne _ _ _ hq]

lemma lookupFile_removeFile (fs : FsState) (p q : JStr) :
    lookupFile (removeFile fs p) q = if q = p then none else lookupFile fs q := by
  unfold lookupFile removeFile
  by_cases hq : q = p
  · subst hq
    rw [if_pos rfl, Option.map_eq_none']
    rw [List.find?_eq_none]
    intro x hx
    rw [List.mem_filter] at hx
    simp only [Bool.not_eq_true'] at hx
    simp [hx.2]
  · rw [if_neg hq, find_filter_ne _ _ _ hq]

lemma moveFileSafe_same_dev {fs : FsState} {src dst : JStr} {c : Nat}
    (hsrc : lookupFile fs src = some c) (hdev : fs.dev src = fs.dev dst) :
    moveFileSafe fs src dst = .ok (setFile (removeFile fs src) dst c) := by
  unfold moveFileSafe renameFs
  rw [hsrc]
  dsimp only
  rw [if_neg (by simp [hdev])]

lemma moveFileSafe_xdev_exists {fs : FsState} {src dst : JStr} {c c' : Nat}
    (hsrc : lookupFile fs src = some c) (hdev : fs.dev src ≠ fs.dev dst)
    (hdst : lookupFile fs dst = some c') :
    moveFileSafe fs src dst = .error .eexist := by
  unfold moveFileSafe renameFs copyFileExcl
  rw [hsrc]
  dsimp only
  rw [if_pos hdev]
  dsimp only
  rw [if_pos rfl, hdst]

lemma moveFileSafe_xdev_ok {fs : FsState} {src dst : JStr} {c : Nat}
    (hsrc : lookupFile fs src = some c) (hdev : fs.dev src ≠ fs.dev dst)
    (hdst : lookupFile fs dst = none) :
    moveFileSafe fs src dst = .ok (removeFile (setFile fs dst c) src) := by
  have hne : src ≠ dst := fun h => hdev (by rw [h])
  unfold moveFileSafe renameFs copyFileExcl unlinkFs
  rw [hsrc]
  dsimp only
  rw [if_pos hdev]
  dsimp only
  rw [if_pos rfl, hdst]
  dsimp only
  rw [lookupFile_setFile, if_neg hne, hsrc]

lemma moveFileSafe_preserves {fs fs' : FsState} {src dst : JStr}
    (hdst : lookupFile fs dst = none) (hok : moveFileSafe fs src dst = .ok fs') :
    lookupFile fs' dst = lookupFile fs src ∧ lookupFile fs' src = none ∧
    ∀ p, p ≠ src → p ≠ dst → lookupFile fs' p = lookupFile fs p := by
  cases hsrc : lookupFile fs src with
  | none =>
    rw [show moveFileSafe fs src dst = .error .enoent by
      unfold moveFileSafe renameFs
      rw [hsrc]
      rfl] at hok
    cases hok
  | some c =>
    have hne : src ≠ dst := by
      intro h
      rw [h, hdst] at hsrc
      cases hsrc
    by_cases hdev : fs.dev src = fs.dev dst
    · rw [moveFileSafe_same_dev hsrc hdev] at hok
      injection hok with hok
      subst hok
      refine ⟨?_, ?_, ?_⟩
      · rw [lookupFile_setFile, if_pos rfl]
      · rw [lookupFile_setFile, if_neg hne, lookupFile_removeFile, if_pos rfl]
      · intro p hps hpd
        rw [lookupFile_setFile, if_neg hpd, lookupFile_removeFile, if_neg hps]
    · rw [moveFileSafe_xdev_ok hsrc hdev hdst] at hok
      injection hok with hok
      subst hok
      refine ⟨?_, ?_, ?_⟩
      · rw [lookupFile_removeFile, if_neg (Ne.symm hne), lookupFile_setFile, if_pos rfl]
      · rw [lookupFile_removeFile, if_pos rfl]
      · intro p hps hpd
        rw [lookupFile_removeFile, if_neg hps, lookupFile_setFile, if_neg hpd]

end RunJob

/-! ### Claim about collision-safe materialization -/

/-- C7: `uniqueFilePath` never selects an existing destination: the chosen
name is the source's base name when free, and a collision always yields a
distinct name with a numeric `_n` suffix (n ≥ 1) inserted between the stem
and the extension; `moveFileSafe` of a fresh destination moves the content
and touches no other path, and when the rename would cross devices the
fallback copy is exclusive-create: an existing destination makes it fail
with EEXIST instead of silently overwriting, otherwise it copies then
deletes the source. -/
theorem claim_C7 (existing : List JStr) (baseName : JStr) (fs : RunJob.FsState)
    (src dst : JStr) :
    (RunJob.uniqueFilePath existing baseName ∉ existing) ∧
    (baseName ∉ existing → RunJob.uniqueFilePath existing baseName = baseName) ∧
    (baseName ∈ existing → ∃ a, 0 < a ∧
      RunJob.uniqueFilePath existing baseName =
        (RunJob.splitExt baseName).1 ++ ('_' :: RunJob.toDec a) ++
          (RunJob.splitExt baseName).2) ∧
    (∀ fs', RunJob.lookupFile fs dst = none →
      RunJob.moveFileSafe fs src dst = .ok fs' →
      RunJob.lookupFile fs' dst = RunJob.lookupFile fs src ∧
      RunJob.lookupFile fs' src = none ∧
      ∀ p, p ≠ src → p ≠ dst → RunJob.lookupFile fs' p = RunJob.lookupFile fs p) ∧
    (∀ c c', fs.dev src ≠ fs.dev dst → RunJob.lookupFile fs src = some c →
      RunJob.lookupFile fs dst = some c' →
      RunJob.moveFileSafe fs src dst = .error .eexist) ∧
    (∀ c, fs.dev src ≠ fs.dev dst → RunJob.lookupFile fs src = some c →
      RunJob.lookupFile fs dst = none →
      RunJob.moveFileSafe fs src dst =
        .ok (RunJob.removeFile (RunJob.setFile fs dst c) src)) := by
  obtain ⟨hfree, a, hform⟩ := RunJob.uniqueFilePath_spec existing baseName
  refine ⟨hfree, fun hnot => ?_, fun hin => ?_,
    fun fs' hdst hok => RunJob.moveFileSafe_preserves hdst hok,
    fun c c' hdev hsrc hdst => RunJob.moveFileSafe_xdev_exists hsrc hdev hdst,
    fun c hdev hsrc hdst => RunJob.moveFileSafe_xdev_ok hsrc hdev hdst⟩
  · unfold RunJob.uniqueFilePath
    simp only [RunJob.uniqueFilePathGo]
    rw [if_neg (by rw [RunJob.candidateFileName_zero]; exact hnot)]
    exact RunJob.candidateFileName_zero baseName
  · have ha : a ≠ 0 := by
      intro h0
      rw [h0, RunJob.candidateFileName_zero] at hform
      rw [hform] at hfree
      exact hfree hin
    refine ⟨a, Nat.pos_of_ne_zero ha, ?_⟩
    rw [hform]
    unfold RunJob.candidateFileName RunJob.attemptSuffix
    rw [if_neg ha]

/-- Witness for C7: a free base name is used as-is. -/
theorem claim_C7_witness :
    RunJob.uniqueFilePath [['a']] ['b'] = ['b'] := by
  have h := (claim_C7 [['a']] ['b']
    { files := [], dev := fun _ => 0 } [] []).2.1 (by decide)
  exact h

/-! ### Trim idempotence -/

lemma dropWhile_idem {α : Type} (p : α → Bool) (l : List α) :
    (l.dropWhile p).dropWhile p = l.dropWhile p := by
  cases hd : l.dropWhile p with
  | nil => rfl
  | cons c t =>
    rw [List.dropWhile_cons, if_neg (by simp [RunJob.dropWhile_head_false p l c t hd])]

lemma dropWhile_trim_eq_self {α : Type} (p : α → Bool) (l : List α) :
    (((l.dropWhile p).reverse.dropWhile p).reverse).dropWhile p =
      ((l.dropWhile p).reverse.dropWhile p).reverse := by
  cases hT : ((l.dropWhile p).reverse.dropWhile p).reverse with
  | nil => rfl
  | cons c t =>
    rw [List.dropWhile_cons, if_neg ?hc]
    case hc =>
      have hhead : ((l.dropWhile p).reverse.dropWhile p).reverse.head? = some c := by
        rw [hT]
        rfl
      rw [List.head?_reverse] at hhead
      obtain ⟨pre, hpre⟩ := List.dropWhile_suffix (l := (l.dropWhile p).reverse) p
      have hZ : ((l.dropWhile p).reverse).getLast? = some c := by
        rw [← hpre, List.getLast?_append, hhead]
        rfl
      rw [List.getLast?_reverse] at hZ
      cases hD : l.dropWhile p with
      | nil => rw [hD] at hZ; cases hZ
      | cons c0 t0 =>
        rw [hD, List.head?_cons] at hZ
        injection hZ with hZ'
        have hpc := RunJob.dropWhile_head_false p l c0 t0 hD
        rw [← hZ']
        simp [hpc]

lemma jsTrim_idem (s : JStr) : jsTrim (jsTrim s) = jsTrim s := by
  have h1 : (jsTrim s).dropWhile Char.isWhitespace = jsTrim s :=
    dropWhile_trim_eq_self Char.isWhitespace s
  have h2 : (jsTrim s).reverse =
      ((s.dropWhile Char.isWhitespace).reverse).dropWhile Char.isWhitespace :=
    List.reverse_reverse _
  show (((jsTrim s).dropWhile Char.isWhitespace).reverse.dropWhile
    Char.isWhitespace).reverse = jsTrim s
  rw [h1, h2, dropWhile_idem]
  rfl

/-! ### Wizard caption normalization: support lemmas -/

namespace BankWizard

lemma normalizeCaptionsGo_facts :
    ∀ (raw : List RawCaption) (f : Int), 0 < f →
      ∀ e ∈ normalizeCaptionsGo f raw,
        e.text ≠ [] ∧ jsTrim e.text = e.text ∧ 0 < e.id := by
  intro raw
  induction raw with
  | nil => intro f hf e he; simp [normalizeCaptionsGo] at he
  | cons a rest ih =>
    intro f hf e he
    cases a with
    | str s =>
      simp only [normalizeCaptionsGo] at he
      by_cases ht : jsTrim s = []
      · rw [if_pos ht] at he
        exact ih f hf e he
      · rw [if_neg ht] at he
        rcases List.mem_cons.mp he with rfl | he'
        · exact ⟨ht, jsTrim_idem s, hf⟩
        · exact ih (f + 1) (by omega) e he'
    | obj oid otext ocaption used used_at =>
      simp only [normalizeCaptionsGo] at he
      by_cases ht : jsTrim (textCandidate otext ocaption) = []
      · rw [if_pos ht] at he
        exact ih f hf e he
      · rw [if_neg ht] at he
        rcases List.mem_cons.mp he with rfl | he'
        · refine ⟨ht, jsTrim_idem _, ?_⟩
          split
          · split
            · rename_i hp
              exact hp
            · exact hf
          · exact hf
        · exact ih _ (lt_of_lt_of_le hf (le_max_left _ _)) e he'

lemma sortById_sorted (l : List CaptionEntry) :
    List.Pairwise (fun a b : CaptionEntry => a.id ≤ b.id) (sortById l) := by
  have h := @List.sorted_mergeSort CaptionEntry (fun a b => decide (a.id ≤ b.id))
    (fun a b c hab hbc => by
      simp only [decide_eq_true_eq] at *
      omega)
    (fun a b => by
      simp only [Bool.or_eq_true, decide_eq_true_eq]
      omega) l
  exact h.imp fun hab => by simpa using hab

lemma sortById_perm (l : List CaptionEntry) : (sortById l).Perm l :=
  List.mergeSort_perm l _

lemma renumber_getElem (l : List CaptionEntry) (j : Nat) :
    (renumber l)[j]? = l[j]?.map (fun x => { x with id := (j : Int) + 1 }) := by
  unfold renumber
  rw [List.getElem?_map, List.getElem?_enum]
  cases l[j]? <;> rfl

lemma renumber_map_id (l : List CaptionEntry) :
    (renumber l).map (fun e => e.id) =
      (List.range l.length).map (fun n : Nat => (n : Int) + 1) := by
  unfold renumber
  rw [List.map_map]
  rw [show ((fun e : CaptionEntry => e.id) ∘ fun p : Nat × CaptionEntry =>
      ({ p.2 with id := (p.1 : Int) + 1 } : CaptionEntry)) =
      ((fun n : Nat => (n : Int) + 1) ∘ Prod.fst) from rfl]
  rw [← List.map_map, List.enum_map_fst]

lemma renumber_length (l : List CaptionEntry) : (renumber l).length = l.length := by
  unfold renumber
  rw [List.length_map, List.enum_length]

lemma renumber_strip (l : List CaptionEntry) :
    (renumber l).map (fun e => (e.text, e.used, e.used_at)) =
      l.map (fun e => (e.text, e.used, e.used_at)) := by
  unfold renumber
  rw [List.map_map]
  rw [show ((fun e : CaptionEntry => (e.text, e.used, e.used_at)) ∘
      fun p : Nat × CaptionEntry =>
      ({ p.2 with id := (p.1 : Int) + 1 } : CaptionEntry)) =
      ((fun e : CaptionEntry => (e.text, e.used, e.used_at)) ∘ Prod.snd) from rfl]
  rw [← List.map_map, List.enum_map_snd]

lemma normalizeCaptions_mem_facts (raw : List RawCaption) :
    ∀ e ∈ normalizeCaptions raw, e.text ≠ [] ∧ jsTrim e.text = e.text := by
  intro e he
  unfold normalizeCaptions renumber at he
  obtain ⟨p, hp, rfl⟩ := List.mem_map.mp he
  obtain ⟨i, x⟩ := p
  obtain ⟨hlt, hx⟩ := List.mem_enum hp
  have hmem : x ∈ sortById (normalizeCaptionsGo 1 raw) := by
    rw [hx]
    exact List.getElem_mem _
  have hmem2 : x ∈ normalizeCaptionsGo 1 raw := (sortById_perm _).mem_iff.mp hmem
  have hfacts := normalizeCaptionsGo_facts raw 1 (by omega) x hmem2
  exact ⟨hfacts.1, hfacts.2.1⟩

lemma normalizeCaptionsGo_roundtrip :
    ∀ (l : List CaptionEntry) (k : Int), 0 < k →
      (∀ (j : Nat) (e : CaptionEntry), l[j]? = some e → e.id = k + j) →
      (∀ e ∈ l, e.text ≠ [] ∧ jsTrim e.text = e.text) →
      normalizeCaptionsGo k (l.map rawOfEntry) = l := by
  intro l
  induction l with
  | nil => intro k _ _ _; rfl
  | cons e rest ih =>
    intro k hk hid htext
    have he := htext e (List.mem_cons_self _ _)
    have hide : e.id = k := by
      have h0 := hid 0 e (by simp)
      simpa using h0
    have hpos : 0 < e.id := by omega
    simp only [List.map_cons, rawOfEntry, normalizeCaptionsGo, textCandidate]
    rw [he.2, if_neg he.1, if_pos hpos]
    rw [show max k (e.id + 1) = k + 1 from by rw [hide]; exact max_eq_right (by omega)]
    rw [ih (k + 1) (by omega) ?_ ?_]
    · intro j x hx
      have h1 := hid (j + 1) x (by simpa using hx)
      push_cast at h1 ⊢
      omega
    · intro x hx
      exact htext x (List.mem_cons_of_mem _ hx)

end BankWizard

/-! ### Claims about caption normalization (engine vs wizard) -/

/-- C3 counterexample: the engine's `normalizeCaptionEntries` keeps a
blank legacy string entry instead of dropping it, and keeps an explicit
id 5 instead of renumbering to dense ids starting at 1. -/
theorem claim_C3_counterexample :
    RunJob.normalizeCaptionEntries [.str [' ']] =
      .ok [{ id := 1, text := [], used := false, used_at := none }] ∧
    RunJob.normalizeCaptionEntries [.obj (some 5) (some ['a']) none false none] =
      .ok [{ id := 5, text := ['a'], used := false, used_at := none }] :=
  ⟨rfl, rfl⟩

/-- C3 (amended): the wizard's `normalizeCaptions` satisfies the claim:
blank texts are dropped (every surviving text is non-empty and trimmed),
entries are ordered by ascending original/fallback id (the sort is by id
and permutes the fallback-assigned entries, whose ids are all positive),
and the final result is renumbered to dense ids 1..N; the engine's
`normalizeCaptionEntries` does not renumber and keeps blank legacy
strings. -/
theorem claim_C3_amended (raw : List RawCaption) :
    ((BankWizard.normalizeCaptions raw).map fun e => e.id) =
      ((List.range (BankWizard.normalizeCaptions raw).length).map fun n : Nat => (n : Int) + 1) ∧
    (∀ e ∈ BankWizard.normalizeCaptions raw, e.text ≠ [] ∧ jsTrim e.text = e.text) ∧
    List.Pairwise (fun a b : CaptionEntry => a.id ≤ b.id)
      (BankWizard.sortById (BankWizard.normalizeCaptionsGo 1 raw)) ∧
    (BankWizard.sortById (BankWizard.normalizeCaptionsGo 1 raw)).Perm
      (BankWizard.normalizeCaptionsGo 1 raw) ∧
    (BankWizard.normalizeCaptions raw).map (fun e => (e.text, e.used, e.used_at)) =
      (BankWizard.sortById (BankWizard.normalizeCaptionsGo 1 raw)).map
        (fun e => (e.text, e.used, e.used_at)) ∧
    (∀ e ∈ BankWizard.normalizeCaptionsGo 1 raw, 0 < e.id) := by
  refine ⟨?_, BankWizard.normalizeCaptions_mem_facts raw, BankWizard.sortById_sorted _,
    BankWizard.sortById_perm _, BankWizard.renumber_strip _,
    fun e he => (BankWizard.normalizeCaptionsGo_facts raw 1 (by omega) e he).2.2⟩
  show (BankWizard.renumber (BankWizard.sortById (BankWizard.normalizeCaptionsGo 1 raw))).map
      (fun e => e.id) = _
  rw [BankWizard.renumber_map_id,
    show (BankWizard.normalizeCaptions raw).length =
      (BankWizard.sortById (BankWizard.normalizeCaptionsGo 1 raw)).length from
      BankWizard.renumber_length _]

/-- Witness for the amended C3 at a concrete bank: the single surviving
entry has non-blank text. -/
theorem claim_C3_amended_witness :
    ({ id := 1, text := ['a'], used := false, used_at := none } : CaptionEntry).text ≠ [] := by
  have hgo : BankWizard.normalizeCaptionsGo 1 [RawCaption.str ['a']] =
      [{ id := 1, text := ['a'], used := false, used_at := none }] := rfl
  have hsort : BankWizard.sortById
      [({ id := 1, text := ['a'], used := false, used_at := none } : CaptionEntry)] =
      [{ id := 1, text := ['a'], used := false, used_at := none }] :=
    List.mergeSort_of_sorted (by simp)
  have hnorm : BankWizard.normalizeCaptions [RawCaption.str ['a']] =
      [{ id := 1, text := ['a'], used := false, used_at := none }] := by
    unfold BankWizard.normalizeCaptions
    rw [hgo, hsort]
    rfl
  exact ((claim_C3_amended [RawCaption.str ['a']]).2.1 _
    (by rw [hnorm]; exact List.mem_cons_self _ _)).1

/-- C9 counterexample: the engine's normalization is not idempotent: a
blank legacy string normalizes successfully to a blank-text entry, and
re-normalizing that output throws the blank-text error. -/
theorem claim_C9_counterexample :
    RunJob.normalizeCaptionEntries [.str []] =
      .ok [{ id := 1, text := [], used := false, used_at := none }] ∧
    RunJob.normalizeCaptionEntries
        (([{ id := 1, text := [], used := false, used_at := none }] :
          List CaptionEntry).map rawOfEntry) = .error .captionNoText :=
  ⟨rfl, rfl⟩

/-- C9 (amended): the wizard's `normalizeCaptions` is idempotent — feeding
its own persisted output back through normalization reproduces it exactly;
the engine's `normalizeCaptionEntries` is not, because a blank legacy
string survives the first pass and aborts the second. -/
theorem claim_C9_amended (raw : List RawCaption) :
    BankWizard.normalizeCaptions
        ((BankWizard.normalizeCaptions raw).map rawOfEntry) =
      BankWizard.normalizeCaptions raw := by
  have hid : ∀ (j : Nat) (e : CaptionEntry),
      (BankWizard.normalizeCaptions raw)[j]? = some e → e.id = 1 + (j : Int) := by
    intro j e h
    rw [show BankWizard.normalizeCaptions raw = BankWizard.renumber
        (BankWizard.sortById (BankWizard.normalizeCaptionsGo 1 raw)) from rfl,
      BankWizard.renumber_getElem] at h
    obtain ⟨x, -, hfx⟩ := Option.map_eq_some'.mp h
    rw [← hfx]
    show (j : Int) + 1 = 1 + (j : Int)
    omega
  have htext := BankWizard.normalizeCaptions_mem_facts raw
  have hgo : BankWizard.normalizeCaptionsGo 1
      ((BankWizard.normalizeCaptions raw).map rawOfEntry) =
      BankWizard.normalizeCaptions raw :=
    BankWizard.normalizeCaptionsGo_roundtrip (BankWizard.normalizeCaptions raw) 1
      (by omega) (fun j e h => by rw [hid j e h]) htext
  conv_lhs => rw [show BankWizard.normalizeCaptions
      ((BankWizard.normalizeCaptions raw).map rawOfEntry) =
      BankWizard.renumber (BankWizard.sortById (BankWizard.normalizeCaptionsGo 1
        ((BankWizard.normalizeCaptions raw).map rawOfEntry))) from rfl, hgo]
  have hsorted : List.Pairwise
      (fun a b : CaptionEntry => decide (a.id ≤ b.id) = true)
      (BankWizard.normalizeCaptions raw) := by
    rw [List.pairwise_iff_getElem]
    intro i j hi hj hij
    have h1 := hid i _ (List.getElem?_eq_getElem hi)
    have h2 := hid j _ (List.getElem?_eq_getElem hj)
    simp only [decide_eq_true_eq]
    rw [h1, h2]
    omega
  rw [show BankWizard.sortById (BankWizard.normalizeCaptions raw) =
    BankWizard.normalizeCaptions raw from List.mergeSort_of_sorted hsorted]
  apply List.ext_getElem?
  intro j
  rw [BankWizard.renumber_getElem]
  cases hj : (BankWizard.normalizeCaptions raw)[j]? with
  | none => rfl
  | some e =>
    have hide := hid j e hj
    rw [Option.map_some']
    congr 1
    cases e
    simp only at hide
    congr 1
    omega

/-! ### Claims about hashtag normalization (engine vs wizard) -/

namespace BankWizard

lemma normalizeHashtag_no_ws (t : JStr) :
    ∀ c ∈ normalizeHashtag t, c.isWhitespace = false := by
  intro c hc
  unfold normalizeHashtag at hc
  by_cases h1 : jsTrim t = []
  · rw [if_pos h1] at hc
    simp at hc
  · rw [if_neg h1] at hc
    by_cases h2 : jsCompact (jsTrim t) = []
    · rw [if_pos h2] at hc
      simp at hc
    · rw [if_neg h2] at hc
      by_cases h3 : (jsCompact (jsTrim t)).head? = some '#'
      · rw [if_pos h3] at hc
        have hm := List.mem_filter.mp hc
        simpa using hm.2
      · rw [if_neg h3] at hc
        rcases List.mem_cons.mp hc with rfl | hc'
        · rfl
        · have hm := List.mem_filter.mp hc'
          simpa using hm.2

lemma normalizeHashtag_head (t : JStr) (h : normalizeHashtag t ≠ []) :
    (normalizeHashtag t).head? = some '#' := by
  unfold normalizeHashtag at h ⊢
  by_cases h1 : jsTrim t = []
  · rw [if_pos h1] at h
    exact absurd rfl h
  · rw [if_neg h1] at h ⊢
    by_cases h2 : jsCompact (jsTrim t) = []
    · rw [if_pos h2] at h
      exact absurd rfl h
    · rw [if_neg h2] at h ⊢
      by_cases h3 : (jsCompact (jsTrim t)).head? = some '#'
      · rw [if_pos h3]
        exact h3
      · rw [if_neg h3]
        rfl

lemma normalizeHashtagsGo_spec :
    ∀ (l : List RawTag) (seen : List JStr),
      (∀ t ∈ normalizeHashtagsGo seen l, jsLower t ∉ seen) ∧
      List.Pairwise (fun a b => jsLower a ≠ jsLower b) (normalizeHashtagsGo seen l) ∧
      (∀ t ∈ normalizeHashtagsGo seen l,
        t ≠ [] ∧ ∃ e ∈ l, normalizeHashtag (rawTagCandidate e) = t) := by
  intro l
  induction l with
  | nil =>
    intro seen
    refine ⟨?_, ?_, ?_⟩ <;> simp [normalizeHashtagsGo]
  | cons entry rest ih =>
    intro seen
    simp only [normalizeHashtagsGo]
    by_cases h1 : normalizeHashtag (rawTagCandidate entry) = []
    · rw [if_pos h1]
      obtain ⟨ha, hb, hc⟩ := ih seen
      refine ⟨ha, hb, fun t ht => ⟨(hc t ht).1, ?_⟩⟩
      obtain ⟨e, he, hh⟩ := (hc t ht).2
      exact ⟨e, List.mem_cons_of_mem _ he, hh⟩
    · rw [if_neg h1]
      by_cases h2 : jsLower (normalizeHashtag (rawTagCandidate entry)) ∈ seen
      · rw [if_pos h2]
        obtain ⟨ha, hb, hc⟩ := ih seen
        refine ⟨ha, hb, fun t ht => ⟨(hc t ht).1, ?_⟩⟩
        obtain ⟨e, he, hh⟩ := (hc t ht).2
        exact ⟨e, List.mem_cons_of_mem _ he, hh⟩
      · rw [if_neg h2]
        obtain ⟨ha, hb, hc⟩ := ih
          (jsLower (normalizeHashtag (rawTagCandidate entry)) :: seen)
        refine ⟨?_, ?_, ?_⟩
        · intro t ht
          rcases List.mem_cons.mp ht with rfl | ht'
          · exact h2
          · exact fun hs => ha t ht' (List.mem_cons_of_mem _ hs)
        · rw [List.pairwise_cons]
          refine ⟨fun t ht' heq => ?_, hb⟩
          exact ha t ht' (heq ▸ List.mem_cons_self _ _)
        · intro t ht
          rcases List.mem_cons.mp ht with rfl | ht'
          · exact ⟨h1, entry, List.mem_cons_self _ _, rfl⟩
          · obtain ⟨e, he, hh⟩ := (hc t ht').2
            exact ⟨(hc t ht').1, e, List.mem_cons_of_mem _ he, hh⟩

end BankWizard

/-- C4 counterexample: the engine's `normalizeHashtags` keeps two tags
that are equal case-insensitively (the `Set` deduplication is
case-sensitive) and keeps internal whitespace in a tag that already
starts with `#` (the whitespace-collapsing branch only runs when the
prefix is added). -/
theorem claim_C4_counterexample :
    RunJob.normalizeHashtags [.str ['#', 'A'], .str ['#', 'a']] =
      [['#', 'A'], ['#', 'a']] ∧
    jsLower ['#', 'A'] = jsLower ['#', 'a'] ∧
    RunJob.normalizeHashtags [.str [' ', '#', 'a', ' ', 'b']] =
      [['#', 'a', ' ', 'b']] :=
  ⟨rfl, rfl, rfl⟩

/-- C4 (amended): the wizard's `normalizeHashtags` satisfies the claim:
every output tag starts with `#`, contains no whitespace, the outputs are
pairwise distinct case-insensitively keeping the first occurrence's
casing, and each output is the canonical form of some raw entry; the
engine's `normalizeHashtags` instead deduplicates case-sensitively and
compacts whitespace only when prefixing `#`. -/
theorem claim_C4_amended (raw : List RawTag) :
    (∀ t ∈ BankWizard.normalizeHashtags raw, t.head? = some '#') ∧
    (∀ t ∈ BankWizard.normalizeHashtags raw, ∀ c ∈ t, c.isWhitespace = false) ∧
    List.Pairwise (fun a b => jsLower a ≠ jsLower b)
      (BankWizard.normalizeHashtags raw) ∧
    (∀ t ∈ BankWizard.normalizeHashtags raw,
      ∃ e ∈ raw, BankWizard.normalizeHashtag (rawTagCandidate e) = t) := by
  obtain ⟨ha, hb, hc⟩ := BankWizard.normalizeHashtagsGo_spec raw []
  refine ⟨fun t ht => ?_, fun t ht c hcm => ?_, hb, fun t ht => (hc t ht).2⟩
  · obtain ⟨e, he, hh⟩ := (hc t ht).2
    rw [← hh]
    exact BankWizard.normalizeHashtag_head _ (by rw [hh]; exact (hc t ht).1)
  · obtain ⟨e, he, hh⟩ := (hc t ht).2
    rw [← hh] at hcm
    exact BankWizard.normalizeHashtag_no_ws _ c hcm

/-- Witness for the amended C4 at a concrete bank: the surviving tag is
`#`-prefixed. -/
theorem claim_C4_amended_witness :
    (['#', 'x'] : JStr).head? = some '#' := by
  have hnorm : BankWizard.normalizeHashtags [RawTag.str ['#', 'x']] = [['#', 'x']] := rfl
  exact (claim_C4_amended [RawTag.str ['#', 'x']]).1 ['#', 'x']
    (by rw [hnorm]; exact List.mem_cons_self _ _)

/-- Witness for C8: the concrete end-to-end run writes the bank last,
after four moves and the caption artifact. -/
theorem claim_C8_witness :
    (RunJob.runJob [['a', '.', 'j', 'p', 'g'], ['b', '.', 'j', 'p', 'g']]
      [['c', '.', 'm', 'p', '4'], ['d', '.', 'm', 'p', '4'], ['e', '.', 'm', 'p', '4']]
      [.str ['H', 'i']] [.str ['#', 'x']] 0 0 0 (fun _ => 0) (fun _ => 0) (fun _ => 0)
      ['t'] (fun _ => false) false false).2 = .ok true := by
  obtain ⟨moves, c, -, -, -, -, hok, -⟩ := claim_C8
    [['a', '.', 'j', 'p', 'g'], ['b', '.', 'j', 'p', 'g']]
    [['c', '.', 'm', 'p', '4'], ['d', '.', 'm', 'p', '4'], ['e', '.', 'm', 'p', '4']]
    [.str ['H', 'i']] [.str ['#', 'x']] 0 0 0 (fun _ => 0) (fun _ => 0) (fun _ => 0)
    ['t'] (fun _ => false) false false (by decide)
  exact hok

end AutoPreview
